import Mathlib

/-! Dimming curves: a verification development.

Shallow embedding of `dim_curve.cpp` / `dim_curve.h` (namespace `DimCurve`).

* Machine integers are `Int` / `Nat`; the two narrowing casts of the source,
  `(int32_t)` and `(uint16_t)`, are written out as explicit wrap-arounds.
* `float` is modelled as IEEE 754 binary32 (`F32`): a finite value is
  `(-1)^neg * m * 2^e`, and `+`, `-`, `*`, `/`, the comparisons and the
  integer-to-float conversion are the correctly rounded operations
  (round to nearest, ties to even), evaluated one operation at a time as the
  source writes them (no fused multiply-add, no excess precision).
* The C library functions whose results IEEE 754 does not pin down (`powf`,
  `expf`, and `lroundf` where its result is unspecified) are fields of a
  parameter `Libm`; a theorem holds for every such library unless it names,
  as a hypothesis, what it assumes of `powf` (`Libm.powfUnit`,
  `Libm.powfOneBase`, `Libm.powfCanonical`).
* A table `uint16_t out[TABLE_SIZE]` is a function from index to entry; a
  generator takes the caller's table and returns the table after the call.
-/

namespace DimCurve

/-! ## Constants of `dim_curve.h` -/

/-- The constant `PWM_MAX` of `dim_curve.h`. -/
def PWM_MAX : Nat := 1023

/-- The constant `TABLE_SIZE` of `dim_curve.h`. -/
def TABLE_SIZE : Nat := 256

/-! ## Machine integers -/

/-- The cast `(int32_t)` applied to a `long`: wrap-around to 32 bits. -/
def toInt32 (z : Int) : Int := (z + 2 ^ 31) % 2 ^ 32 - 2 ^ 31

/-- The cast `(uint16_t)` applied to an `int32_t`: wrap-around to 16 bits. -/
def toUInt16 (v : Int) : Nat := (v % 65536).toNat

/-- The function `clampPwm` of `dim_curve.cpp`. -/
def clampPwm (v : Int) : Nat :=
  if v < 0 then 0
  else if v > (PWM_MAX : Int) then PWM_MAX
  else toUInt16 v

/-! ## IEEE 754 binary32 -/

/-- A binary32 datum: NaN, a signed infinity, or the finite value
`(-1)^neg * m * 2^e` (a zero mantissa is a signed zero). -/
inductive F32 where
  | nan : F32
  | inf (neg : Bool) : F32
  | fin (neg : Bool) (m : Nat) (e : Int) : F32
  deriving DecidableEq

/-- Binary logarithm by repeated halving, at most `fuel` times. -/
def log2Fuel : Nat → Nat → Nat
  | 0, _ => 0
  | fuel + 1, n => if n < 2 then 0 else log2Fuel fuel (n / 2) + 1

/-- The integer `floor (log2 n)` for positive `n` (and 0 for `n = 0`). -/
def ilog2 (n : Nat) : Nat := log2Fuel n n

/-- The integer `floor (log2 (p / q))`, for positive `p` and `q`. -/
def ilog2Ratio (p q : Nat) : Int :=
  let d : Int := (ilog2 p : Int) - (ilog2 q : Int)
  if q * 2 ^ d.toNat ≤ p * 2 ^ (-d).toNat then d else d - 1

/-- Rounding of the real number `(-1)^neg * (p / q) * 2^e` (with `q > 0`) to
binary32: 24 significant bits, least exponent `-149`, round to nearest with
ties to even, overflow to infinity. The result is in canonical form: a zero
is `fin neg 0 0`, and a mantissa that rounds up to `2^24` is renormalised. -/
def roundNE (neg : Bool) (p q : Nat) (e : Int) : F32 :=
  if p = 0 then F32.fin neg 0 0
  else
    let k : Int := max (ilog2Ratio p q + e - 23) (-149)
    let num : Nat := p * 2 ^ (e - k).toNat
    let den : Nat := q * 2 ^ (k - e).toNat
    let m0 : Nat := num / den
    let r : Nat := num % den
    let m : Nat := if den < 2 * r ∨ (2 * r = den ∧ m0 % 2 = 1) then m0 + 1 else m0
    if m = 0 then F32.fin neg 0 0
    else if m = 2 ^ 24 then (if 104 ≤ k then F32.inf neg else F32.fin neg (2 ^ 23) (k + 1))
    else if 104 < k then F32.inf neg else F32.fin neg m k

namespace F32

/-- The integer `(-1)^neg * n`. -/
def signed (neg : Bool) (n : Nat) : Int := if neg then -(n : Int) else (n : Int)

/-- Conversion of an integer to `float`, as in `(float)i`. -/
def ofInt (n : Int) : F32 := roundNE (decide (n < 0)) n.natAbs 1 0

/-- A decimal literal `p / q` written with the suffix `f`. -/
def ofRatio (p q : Nat) : F32 := roundNE false p q 0

/-- The literal `0.0f`. -/
def zero : F32 := fin false 0 0

/-- The literal `1.0f`, in canonical form `2^23 * 2^(-23)`. -/
def one : F32 := fin false 8388608 (-23)

/-- Unary minus. -/
def neg : F32 → F32
  | nan => nan
  | inf s => inf (!s)
  | fin s m e => fin (!s) m e

/-- The operator `*` on `float`. -/
def mul : F32 → F32 → F32
  | nan, _ => nan
  | _, nan => nan
  | inf s, inf t => inf (xor s t)
  | inf s, fin t n _ => if n = 0 then nan else inf (xor s t)
  | fin s m _, inf t => if m = 0 then nan else inf (xor s t)
  | fin s m e, fin t n f => roundNE (xor s t) (m * n) 1 (e + f)

/-- The operator `/` on `float`. -/
def div : F32 → F32 → F32
  | nan, _ => nan
  | _, nan => nan
  | inf _, inf _ => nan
  | inf s, fin t _ _ => inf (xor s t)
  | fin s _ _, inf t => fin (xor s t) 0 0
  | fin s m e, fin t n f =>
    if n = 0 then (if m = 0 then nan else inf (xor s t))
    else roundNE (xor s t) m n (e - f)

/-- The operator `+` on `float`. -/
def add : F32 → F32 → F32
  | nan, _ => nan
  | _, nan => nan
  | inf s, inf t => if s = t then inf s else nan
  | inf s, fin _ _ _ => inf s
  | fin _ _ _, inf t => inf t
  | fin s m e, fin t n f =>
    let c : Int := min e f
    let z : Int := signed s (m * 2 ^ (e - c).toNat) + signed t (n * 2 ^ (f - c).toNat)
    if z = 0 then fin (s && t) 0 0 else roundNE (decide (z < 0)) z.natAbs 1 c

/-- The operator `-` on `float`. -/
def sub (a b : F32) : F32 := add a (neg b)

/-- The operator `<` on `float` (false when an operand is NaN). -/
def lt : F32 → F32 → Bool
  | nan, _ => false
  | _, nan => false
  | inf s, inf t => s && !t
  | inf s, fin _ _ _ => s
  | fin _ _ _, inf t => !t
  | fin s m e, fin t n f =>
    let c : Int := min e f
    decide (signed s (m * 2 ^ (e - c).toNat) < signed t (n * 2 ^ (f - c).toNat))

/-- The operator `==` on `float` (false when an operand is NaN; the two zeros
are equal). -/
def eq : F32 → F32 → Bool
  | nan, _ => false
  | _, nan => false
  | inf s, inf t => s == t
  | inf _, fin _ _ _ => false
  | fin _ _ _, inf _ => false
  | fin s m e, fin t n f =>
    let c : Int := min e f
    decide (signed s (m * 2 ^ (e - c).toNat) = signed t (n * 2 ^ (f - c).toNat))

/-- The operator `>` on `float`. -/
def gt (a b : F32) : Bool := lt b a

/-- The operator `>=` on `float`. -/
def ge (a b : F32) : Bool := lt b a || eq a b

/-- The operator `<=` on `float`. -/
def le (a b : F32) : Bool := lt a b || eq a b

/-- The classification macro `isfinite`. -/
def isfinite : F32 → Bool
  | fin _ _ _ => true
  | _ => false

/-- The nearest integer to a finite value, ties away from zero. -/
def roundAway (s : Bool) (m : Nat) (e : Int) : Int :=
  signed s (if 0 ≤ e then m * 2 ^ e.toNat
            else (m + 2 ^ ((-e).toNat - 1)) / 2 ^ (-e).toNat)

end F32

/-- The part of the C library that IEEE 754 leaves open: `powf`, `expf`, the
width of `long` (at least 32 bits), and what `lroundf` returns where the C
standard leaves its result unspecified (NaN, an infinity, a value outside
`long`). -/
structure Libm where
  powf : F32 → F32 → F32
  expf : F32 → F32
  longBits : Nat
  longBits_ge : 32 ≤ longBits
  lroundfInvalid : F32 → Int

/-- The C library function `lroundf`. -/
def lroundf (L : Libm) : F32 → Int
  | F32.fin s m e =>
    let z : Int := F32.roundAway s m e
    if -(2 : Int) ^ (L.longBits - 1) ≤ z ∧ z < (2 : Int) ^ (L.longBits - 1) then z
    else L.lroundfInvalid (F32.fin s m e)
  | x => L.lroundfInvalid x

/-- The function `clamp01` of `dim_curve.cpp`. -/
def clamp01 (v : F32) : F32 :=
  if F32.lt v F32.zero then F32.zero
  else if F32.gt v F32.one then F32.one
  else v

/-! ## Tables and loops -/

/-- The caller's array `uint16_t out[TABLE_SIZE]`: entry at each index. -/
abbrev Table := Nat → Nat

/-- The assignment `out[i] = v`. -/
def Table.set (out : Table) (i v : Nat) : Table := fun j => if j = i then v else out j

/-- The loop `for (size_t i = lo; i < hi; i++) body`, threading the table. -/
def forLoop (lo hi : Nat) (body : Nat → Table → Table) (out : Table) : Table :=
  (List.range' lo (hi - lo)).foldl (fun acc i => body i acc) out

/-- The function `enforce_endpoints` of `dim_curve.cpp`. -/
def enforce_endpoints (out : Table) : Table :=
  (out.set 0 0).set (TABLE_SIZE - 1) PWM_MAX

/-! ## The generators of `dim_curve.cpp` -/

/-- The normalised position `x = (float)i / (float)(TABLE_SIZE - 1)`. -/
def xOf (i : Nat) : F32 := F32.div (F32.ofInt i) (F32.ofInt ((TABLE_SIZE : Int) - 1))

/-- The conversion `(int32_t)lroundf(y * (float)PWM_MAX)` of a curve value. -/
def toPwm (L : Libm) (y : F32) : Int := toInt32 (lroundf L (F32.mul y (F32.ofInt PWM_MAX)))

/-- The function `linear` of `dim_curve.cpp`. -/
def linear (L : Libm) (out : Table) : Table :=
  enforce_endpoints
    (forLoop 0 TABLE_SIZE (fun i out =>
      let x := xOf i
      let pwm := toPwm L x
      out.set i (clampPwm pwm)) out)

/-- The function `gamma` of `dim_curve.cpp`. -/
def gamma (L : Libm) (out : Table) (g : F32) : Table :=
  if !(F32.gt g F32.zero) then linear L out
  else
    enforce_endpoints
      (forLoop 0 TABLE_SIZE (fun i out =>
        let x := xOf i
        let y := L.powf x g
        let pwm := toPwm L y
        out.set i (clampPwm pwm)) out)

/-- The shaping loop of `exponential` and the call of `enforce_endpoints`
that follows it (lines 63 to 70 of `dim_curve.cpp`). -/
def exponentialShaping (L : Libm) (out : Table) (k denom : F32) : Table :=
  enforce_endpoints
    (forLoop 0 TABLE_SIZE (fun i out =>
      let x := xOf i
      let y := F32.div (F32.sub (L.expf (F32.mul k x)) F32.one) denom
      let y := clamp01 y
      let pwm := toPwm L y
      out.set i (clampPwm pwm)) out)

/-- The function `exponential` of `dim_curve.cpp`. -/
def exponential (L : Libm) (out : Table) (k : F32) : Table :=
  if !(F32.ge k F32.zero) then linear L out
  else if F32.eq k F32.zero then linear L out
  else
    let denom := F32.sub (L.expf k) F32.one
    if F32.eq denom F32.zero || !(F32.isfinite denom) then linear L out
    else exponentialShaping L out k denom

/-- The function `daliLog` of `dim_curve.cpp`. -/
def daliLog (L : Libm) (out : Table) : Table :=
  let out := out.set 0 0
  enforce_endpoints
    (forLoop 1 TABLE_SIZE (fun i out =>
      let dali : Int := if i > 254 then 254 else (i : Int)
      let exponent := F32.div (F32.sub (F32.ofInt dali) (F32.ofRatio 254 1)) (F32.ofRatio 253 1)
      let frac := L.powf (F32.ofRatio 1000 1) exponent
      let pwm := toPwm L frac
      out.set i (clampPwm pwm)) out)

/-- The function `ledLowEndBoost` of `dim_curve.cpp`. -/
def ledLowEndBoost (L : Libm) (out : Table) (g : F32) (pwmMin : Nat) : Table :=
  let pwmMin := if pwmMin > PWM_MAX then PWM_MAX else pwmMin
  let g := if !(F32.gt g F32.zero) then F32.ofRatio 22 10 else g
  enforce_endpoints
    (forLoop 0 TABLE_SIZE (fun i out =>
      if i = 0 then out.set i 0
      else
        let x := xOf i
        let y := L.powf x g
        let scaled := F32.add (F32.ofInt pwmMin)
          (F32.mul y (F32.ofInt ((PWM_MAX : Int) - (pwmMin : Int))))
        out.set i (clampPwm (toInt32 (lroundf L scaled)))) out)

/-- The function `ledHybrid` of `dim_curve.cpp`. -/
def ledHybrid (L : Libm) (out : Table) (t gammaLow gammaHigh : F32) : Table :=
  let t := if !(F32.gt t F32.zero) then F32.ofRatio 2 10 else t
  let t := if F32.gt t F32.one then F32.one else t
  let gammaLow := if !(F32.gt gammaLow F32.zero) then F32.ofRatio 3 1 else gammaLow
  let gammaHigh := if !(F32.gt gammaHigh F32.zero) then F32.ofRatio 22 10 else gammaHigh
  let y_t := L.powf t gammaHigh
  enforce_endpoints
    (forLoop 0 TABLE_SIZE (fun i out =>
      let x := xOf i
      let y :=
        if F32.lt x t then
          let xn := if F32.gt t F32.zero then F32.div x t else F32.zero
          F32.mul (L.powf xn gammaLow) y_t
        else L.powf x gammaHigh
      let y := clamp01 y
      out.set i (clampPwm (toPwm L y))) out)

/-- The function `ledSCurve` of `dim_curve.cpp`. -/
def ledSCurve (L : Libm) (out : Table) (g : F32) : Table :=
  let g := if !(F32.gt g F32.zero) then F32.ofRatio 22 10 else g
  enforce_endpoints
    (forLoop 0 TABLE_SIZE (fun i out =>
      let x := xOf i
      let s := F32.mul (F32.mul x x) (F32.sub (F32.ofRatio 3 1) (F32.mul (F32.ofRatio 2 1) x))
      let y := L.powf (clamp01 s) g
      out.set i (clampPwm (toPwm L y))) out)

/-- Modelled from the spec: the function `validate`, which `dim_curve.h`
declares and `dim_curve.cpp` does not define. It returns true when
`out[0] == 0`, `out[255] == PWM_MAX`, every entry is within `0..PWM_MAX` and
the entries never decrease from one index to the next; the table is a
`const` argument. -/
def validate (out : Table) : Bool :=
  out 0 == 0 && out (TABLE_SIZE - 1) == PWM_MAX
    && (List.range TABLE_SIZE).all (fun i => decide (out i ≤ PWM_MAX))
    && (List.range (TABLE_SIZE - 1)).all (fun i => decide (out i ≤ out (i + 1)))

/-- A stand-in C library for concrete evaluations: `powf x g` returns `x`,
`expf x` returns `x`, `long` has 64 bits and `lroundf` returns 0 where its
result is unspecified. -/
def sampleLibm : Libm where
  powf := fun x _ => x
  expf := fun x => x
  longBits := 64
  longBits_ge := by decide
  lroundfInvalid := fun _ => 0

/-- A caller's table holding 0 in every entry. -/
def zeroTable : Table := fun _ => 0

/-- Round to nearest with ties away from zero, the rounding of the spec. -/
def roundHalfAway (q : ℚ) : Int := if 0 ≤ q then ⌊q + 1 / 2⌋ else -⌊-q + 1 / 2⌋

/-- The entry the spec gives for index `i` of the linear table,
`round(i/255 × 1023)`. -/
def linearSpec (i : Nat) : Int := roundHalfAway ((i : ℚ) / 255 * 1023)

/-- Whether the product `x * (float)PWM_MAX` that `linear` forms at index `i`
is a finite `float` whose nearest integer (ties away from zero) is `v`. -/
def linearSampleIs (i : Nat) (v : Int) : Bool :=
  match F32.mul (xOf i) (F32.ofInt PWM_MAX) with
  | F32.fin s m e => F32.roundAway s m e == v
  | _ => false

/-! ## Sanitising and shaping, named apart -/

/-- The sanitising of `t` at the head of `ledHybrid`:
`if (!(t > 0.0f)) t = 0.2f; if (t > 1.0f) t = 1.0f;`. -/
def sanitizeThreshold (t : F32) : F32 :=
  let t := if !(F32.gt t F32.zero) then F32.ofRatio 2 10 else t
  if F32.gt t F32.one then F32.one else t

/-- The sanitising of an exponent, `if (!(g > 0.0f)) g = d;`, with the
default `d` of the generator. -/
def sanitizeGamma (d g : F32) : F32 := if !(F32.gt g F32.zero) then d else g

/-- The sanitising of the floor, `if (pwmMin > PWM_MAX) pwmMin = PWM_MAX;`. -/
def sanitizeFloor (pwmMin : Nat) : Nat := if pwmMin > PWM_MAX then PWM_MAX else pwmMin

/-- The curve value `ledHybrid` computes at index `i` from sanitised
parameters, before `clamp01`; with `guard` false the defensive test
`(t > 0.0f) ? (x / t) : 0.0f` is replaced by the bare division `x / t`. -/
def hybridValue (L : Libm) (guard : Bool) (t gammaLow gammaHigh : F32) (i : Nat) : F32 :=
  let y_t := L.powf t gammaHigh
  let x := xOf i
  if F32.lt x t then
    let xn := if guard then (if F32.gt t F32.zero then F32.div x t else F32.zero)
              else F32.div x t
    F32.mul (L.powf xn gammaLow) y_t
  else L.powf x gammaHigh

/-- The loop of `ledHybrid` and the call of `enforce_endpoints` that follows
it, on sanitised parameters. -/
def hybridShaping (L : Libm) (guard : Bool) (out : Table) (t gammaLow gammaHigh : F32) :
    Table :=
  enforce_endpoints
    (forLoop 0 TABLE_SIZE (fun i out =>
      out.set i (clampPwm (toPwm L (clamp01 (hybridValue L guard t gammaLow gammaHigh i))))) out)

/-- The function `ledHybrid` with the defensive test on `t` removed from its
loop: `xn = x / t`. -/
def ledHybridNoGuard (L : Libm) (out : Table) (t gammaLow gammaHigh : F32) : Table :=
  hybridShaping L false out (sanitizeThreshold t) (sanitizeGamma (F32.ofRatio 3 1) gammaLow)
    (sanitizeGamma (F32.ofRatio 22 10) gammaHigh)

/-- The loop of `ledLowEndBoost` and the call of `enforce_endpoints` that
follows it, on sanitised parameters. -/
def lowEndBoostShaping (L : Libm) (out : Table) (g : F32) (pwmMin : Nat) : Table :=
  enforce_endpoints
    (forLoop 0 TABLE_SIZE (fun i out =>
      if i = 0 then out.set i 0
      else
        let x := xOf i
        let y := L.powf x g
        let scaled := F32.add (F32.ofInt pwmMin)
          (F32.mul y (F32.ofInt ((PWM_MAX : Int) - (pwmMin : Int))))
        out.set i (clampPwm (toInt32 (lroundf L scaled)))) out)

/-- The loop of `ledSCurve` and the call of `enforce_endpoints` that follows
it, on a sanitised exponent. -/
def sCurveShaping (L : Libm) (out : Table) (g : F32) : Table :=
  enforce_endpoints
    (forLoop 0 TABLE_SIZE (fun i out =>
      let x := xOf i
      let s := F32.mul (F32.mul x x) (F32.sub (F32.ofRatio 3 1) (F32.mul (F32.ofRatio 2 1) x))
      let y := L.powf (clamp01 s) g
      out.set i (clampPwm (toPwm L y))) out)

/-- The replacement the spec words for the threshold: 0.2 when `t` is
non-positive or NaN, 1.0 when `t > 1`, and `t` otherwise. -/
def specThreshold (t : F32) : F32 :=
  if t = F32.nan ∨ F32.le t F32.zero = true then F32.ofRatio 2 10
  else if F32.gt t F32.one = true then F32.one
  else t

/-- The replacement the spec words for an exponent: the default `d` when `g`
is non-positive or NaN, and `g` otherwise. -/
def specGamma (d g : F32) : F32 :=
  if g = F32.nan ∨ F32.le g F32.zero = true then d else g

/-- Canonical form of a binary32 datum: a zero is `fin s 0 0`, a subnormal
number has exponent `-149` and a mantissa below `2^23`, a normal number has a
mantissa in `2^23 .. 2^24 - 1` and an exponent in `-149 .. 104`. -/
def F32.canonical : F32 → Bool
  | F32.fin _ m e =>
    decide ((m = 0 ∧ e = 0) ∨ (0 < m ∧ m < 8388608 ∧ e = -149)
      ∨ (8388608 ≤ m ∧ m < 16777216 ∧ -149 ≤ e ∧ e ≤ 104))
  | _ => true

/-! ## The seam of `ledHybrid` -/

/-- The low-segment formula of `ledHybrid` at index `i`:
`powf(x / t, gammaLow) * powf(t, gammaHigh)`. -/
def hybridLow (L : Libm) (t gammaLow gammaHigh : F32) (i : Nat) : F32 :=
  F32.mul (L.powf (F32.div (xOf i) t) gammaLow) (L.powf t gammaHigh)

/-- The high-segment formula of `ledHybrid` at index `i`: `powf(x, gammaHigh)`. -/
def hybridHigh (L : Libm) (gammaHigh : F32) (i : Nat) : F32 := L.powf (xOf i) gammaHigh

/-- The PWM level `ledHybrid` stores for a curve value `y`:
`clampPwm((int32_t)lroundf(clamp01(y) * (float)PWM_MAX))`. -/
def seamPwm (L : Libm) (y : F32) : Nat := clampPwm (toPwm L (clamp01 y))

/-- The absolute value of a `float`. -/
def F32.abs : F32 → F32
  | F32.nan => F32.nan
  | F32.inf _ => F32.inf false
  | F32.fin _ m e => F32.fin false m e

/-- Whether `i` is an index nearest to `x = t`: no position `x` of the table
is closer to `t` than that of `i`. -/
def isNearestIndex (t : F32) (i : Nat) : Bool :=
  (List.range 256).all (fun j =>
    F32.le (F32.abs (F32.sub (xOf i) t)) (F32.abs (F32.sub (xOf j) t)))

/-- A C library for the evaluation of the seam: `powf(x, g)` is the rounded
product `x * x * x` when `g == 3.0f` and `x` otherwise (so `powf(x, 1.0f)` is
`x`); the other fields are those of `sampleLibm`. -/
def cubeLibm : Libm where
  powf := fun x g => if F32.eq g (F32.ofRatio 3 1) then F32.mul (F32.mul x x) x else x
  expf := fun x => x
  longBits := 64
  longBits_ge := by decide
  lroundfInvalid := fun _ => 0

/-! ## Assumptions on `powf` -/

/-- The library's `powf` returns a binary32 datum in canonical form whenever
its first argument is one. -/
def Libm.powfCanonical (L : Libm) : Prop :=
  ∀ x g, x.canonical = true → (L.powf x g).canonical = true

/-- The library's `powf` returns 1 for the base 1 and any exponent, even a
NaN (C standard, Annex F). -/
def Libm.powfOneBase (L : Libm) : Prop := ∀ g, L.powf F32.one g = F32.one

/-- The library's `powf` maps a base in `[0, 1]` and an exponent `> 0` to a
value in `[0, 1]`. -/
def Libm.powfUnit (L : Libm) : Prop :=
  ∀ x g, F32.le F32.zero x = true → F32.le x F32.one = true → F32.gt g F32.zero = true →
    F32.le F32.zero (L.powf x g) = true ∧ F32.le (L.powf x g) F32.one = true

/-! ## Loops that write one entry per iteration -/

theorem Table.set_apply (out : Table) (i v j : Nat) :
    out.set i v j = if j = i then v else out j := rfl

theorem foldl_range_set (f : Nat → Nat) (body : Nat → Table → Table)
    (hb : ∀ i t, body i t = t.set i (f i)) (n : Nat) :
    ∀ (s : Nat) (t : Table) (j : Nat),
      (List.range' s n).foldl (fun acc i => body i acc) t j
        = if s ≤ j ∧ j < s + n then f j else t j := by
  induction n with
  | zero =>
    intro s t j
    have : ¬ (s ≤ j ∧ j < s + 0) := by omega
    rw [if_neg this]
    rfl
  | succ n ih =>
    intro s t j
    rw [List.range', List.foldl_cons, ih (s + 1) (body s t) j, hb s t, Table.set_apply]
    by_cases h1 : j = s
    · subst h1
      have : ¬ (j + 1 ≤ j ∧ j < j + 1 + n) := by omega
      simp [this]
    · by_cases h2 : s + 1 ≤ j ∧ j < s + 1 + n
      · have : s ≤ j ∧ j < s + (n + 1) := by omega
        simp [h2, this]
      · have : ¬ (s ≤ j ∧ j < s + (n + 1)) := by omega
        simp [h1, h2, this]

/-- A loop whose body is `out[i] = f i` leaves `f j` at every index of its
range and the caller's entry elsewhere. -/
theorem forLoop_set (f : Nat → Nat) (body : Nat → Table → Table)
    (hb : ∀ i t, body i t = t.set i (f i)) (lo hi : Nat) (t : Table) (j : Nat) :
    forLoop lo hi body t j = if lo ≤ j ∧ j < hi then f j else t j := by
  unfold forLoop
  rw [foldl_range_set f body hb]
  by_cases h : lo ≤ j ∧ j < hi
  · have : lo ≤ j ∧ j < lo + (hi - lo) := by omega
    simp [h, this]
  · have : ¬ (lo ≤ j ∧ j < lo + (hi - lo)) := by omega
    simp [h, this]

theorem enforce_endpoints_apply (out : Table) (j : Nat) :
    enforce_endpoints out j = if j = 255 then 1023 else if j = 0 then 0 else out j := rfl

/-- Entry `j` of a table filled by a one-entry-per-iteration loop over
`lo..255` and then passed to `enforce_endpoints`. -/
theorem enforce_forLoop_apply (f : Nat → Nat) (body : Nat → Table → Table)
    (hb : ∀ i t, body i t = t.set i (f i)) (lo : Nat) (t : Table) (j : Nat) :
    enforce_endpoints (forLoop lo TABLE_SIZE body t) j
      = if j = 255 then 1023 else if j = 0 then 0
        else if lo ≤ j ∧ j < 256 then f j else t j := by
  rw [enforce_endpoints_apply, forLoop_set f body hb]
  rfl

/-- The value `clampPwm` returns never exceeds `PWM_MAX`. -/
theorem clampPwm_le (v : Int) : clampPwm v ≤ 1023 := by
  unfold clampPwm toUInt16 PWM_MAX
  split
  · omega
  · split
    · omega
    · omega

/-- A table filled by a loop over `lo..255` (with `lo <= 1`) whose body
writes a value of `clampPwm`, or the constant 0, and then passed to
`enforce_endpoints`, has all its 256 entries within `0..1023`. -/
theorem enforce_forLoop_le (f : Nat → Nat) (body : Nat → Table → Table)
    (hb : ∀ i t, body i t = t.set i (f i)) (hf : ∀ i, f i ≤ 1023)
    (lo : Nat) (hlo : lo ≤ 1) (t : Table) (j : Nat) (hj : j < 256) :
    enforce_endpoints (forLoop lo TABLE_SIZE body t) j ≤ 1023 := by
  rw [enforce_forLoop_apply f body hb]
  split
  · omega
  · split
    · omega
    · have : lo ≤ j ∧ j < 256 := by omega
      rw [if_pos this]
      exact hf j

theorem ledLowEndBoost_body (L : Libm) (g : F32) (pwmMin : Nat) (i : Nat) (out : Table) :
    (if i = 0 then out.set i 0
      else out.set i (clampPwm (toInt32 (lroundf L
        (F32.add (F32.ofInt pwmMin)
          (F32.mul (L.powf (xOf i) g) (F32.ofInt ((PWM_MAX : Int) - (pwmMin : Int)))))))))
    = out.set i (if i = 0 then 0
        else clampPwm (toInt32 (lroundf L
          (F32.add (F32.ofInt pwmMin)
            (F32.mul (L.powf (xOf i) g) (F32.ofInt ((PWM_MAX : Int) - (pwmMin : Int)))))))) := by
  split <;> rfl

theorem enforce_endpoints_ends (out : Table) :
    enforce_endpoints out 0 = 0 ∧ enforce_endpoints out 255 = 1023 := ⟨rfl, rfl⟩

theorem linear_ends (L : Libm) (out : Table) :
    linear L out 0 = 0 ∧ linear L out 255 = 1023 := enforce_endpoints_ends _

theorem linear_le (L : Libm) (out : Table) (j : Nat) (hj : j < 256) :
    linear L out j ≤ 1023 :=
  enforce_forLoop_le (fun i => clampPwm (toPwm L (xOf i))) _ (fun _ _ => rfl)
    (fun _ => clampPwm_le _) 0 (by omega) out j hj

/-! ## Endpoints and range of every generator -/

/-- C2: for every generator, every C library, every parameter value and every
initial content of the caller's table, the table after the call has
`out[0] == 0` and `out[255] == 1023`. -/
theorem generators_endpoints (L : Libm) (out : Table) (g k t gammaLow gammaHigh : F32)
    (pwmMin : Nat) :
    (linear L out 0 = 0 ∧ linear L out 255 = 1023)
    ∧ (gamma L out g 0 = 0 ∧ gamma L out g 255 = 1023)
    ∧ (exponential L out k 0 = 0 ∧ exponential L out k 255 = 1023)
    ∧ (daliLog L out 0 = 0 ∧ daliLog L out 255 = 1023)
    ∧ (ledLowEndBoost L out g pwmMin 0 = 0 ∧ ledLowEndBoost L out g pwmMin 255 = 1023)
    ∧ (ledHybrid L out t gammaLow gammaHigh 0 = 0
        ∧ ledHybrid L out t gammaLow gammaHigh 255 = 1023)
    ∧ (ledSCurve L out g 0 = 0 ∧ ledSCurve L out g 255 = 1023) := by
  refine ⟨linear_ends L out, ?_, ?_, enforce_endpoints_ends _, enforce_endpoints_ends _,
    enforce_endpoints_ends _, enforce_endpoints_ends _⟩
  · unfold gamma
    split
    · exact linear_ends L out
    · exact enforce_endpoints_ends _
  · unfold exponential
    split
    · exact linear_ends L out
    · split
      · exact linear_ends L out
      · dsimp only
        split
        · exact linear_ends L out
        · exact enforce_endpoints_ends _

/-- C3: for every generator, every C library (so whatever `powf`, `expf` and
`lroundf` return, also for a NaN or an out-of-range intermediate), every
parameter value and every index `i` in `0..255`, the entry `out[i]` of the
table after the call lies in `0..1023`. -/
theorem generators_range (L : Libm) (out : Table) (g k t gammaLow gammaHigh : F32)
    (pwmMin : Nat) (i : Nat) (hi : i < 256) :
    linear L out i ≤ 1023
    ∧ gamma L out g i ≤ 1023
    ∧ exponential L out k i ≤ 1023
    ∧ daliLog L out i ≤ 1023
    ∧ ledLowEndBoost L out g pwmMin i ≤ 1023
    ∧ ledHybrid L out t gammaLow gammaHigh i ≤ 1023
    ∧ ledSCurve L out g i ≤ 1023 := by
  refine ⟨linear_le L out i hi, ?_, ?_, ?_, ?_, ?_, ?_⟩
  · unfold gamma
    split
    · exact linear_le L out i hi
    · exact enforce_forLoop_le (fun i => clampPwm (toPwm L (L.powf (xOf i) g))) _
        (fun _ _ => rfl) (fun _ => clampPwm_le _) 0 (by omega) out i hi
  · unfold exponential
    split
    · exact linear_le L out i hi
    · split
      · exact linear_le L out i hi
      · dsimp only
        split
        · exact linear_le L out i hi
        · unfold exponentialShaping
          exact enforce_forLoop_le
            (fun i => clampPwm (toPwm L (clamp01 (F32.div
              (F32.sub (L.expf (F32.mul k (xOf i))) F32.one)
              (F32.sub (L.expf k) F32.one))))) _
            (fun _ _ => rfl) (fun _ => clampPwm_le _) 0 (by omega) out i hi
  · exact enforce_forLoop_le
      (fun i => clampPwm (toPwm L (L.powf (F32.ofRatio 1000 1)
        (F32.div (F32.sub (F32.ofInt (if i > 254 then 254 else (i : Int)))
          (F32.ofRatio 254 1)) (F32.ofRatio 253 1))))) _
      (fun _ _ => rfl) (fun _ => clampPwm_le _) 1 (by omega) _ i hi
  · unfold ledLowEndBoost
    refine enforce_forLoop_le _ _ (fun i t => ledLowEndBoost_body L _ _ i t) ?_ 0 (by omega)
      out i hi
    intro j
    dsimp only
    split
    · omega
    · exact clampPwm_le _
  · unfold ledHybrid
    exact enforce_forLoop_le _ _ (fun _ _ => rfl) (fun _ => clampPwm_le _) 0 (by omega)
      out i hi
  · unfold ledSCurve
    exact enforce_forLoop_le _ _ (fun _ _ => rfl) (fun _ => clampPwm_le _) 0 (by omega)
      out i hi

/-- Witness of C3 at index 7, for the stand-in library and a zeroed table. -/
theorem generators_range_witness :
    7 < 256
    ∧ (linear sampleLibm zeroTable 7 ≤ 1023
      ∧ gamma sampleLibm zeroTable F32.one 7 ≤ 1023
      ∧ exponential sampleLibm zeroTable F32.one 7 ≤ 1023
      ∧ daliLog sampleLibm zeroTable 7 ≤ 1023
      ∧ ledLowEndBoost sampleLibm zeroTable F32.one 500 7 ≤ 1023
      ∧ ledHybrid sampleLibm zeroTable F32.one F32.one F32.one 7 ≤ 1023
      ∧ ledSCurve sampleLibm zeroTable F32.one 7 ≤ 1023) :=
  ⟨by decide,
    generators_range sampleLibm zeroTable F32.one F32.one F32.one F32.one F32.one 500 7
      (by decide)⟩

/-! ## The validator -/

theorem validate_true_iff (out : Table) :
    validate out = true ↔
      out 0 = 0 ∧ out 255 = 1023 ∧ (∀ i, i < 256 → out i ≤ 1023)
        ∧ (∀ i, i < 255 → out i ≤ out (i + 1)) := by
  simp only [validate, TABLE_SIZE, PWM_MAX, Bool.and_eq_true, beq_iff_eq, List.all_eq_true,
    List.mem_range, decide_eq_true_eq, and_assoc]

/-- C4: `validate` returns true if and only if `out[0] == 0`,
`out[255] == 1023`, every entry is within `0..1023` and the entries never
decrease from index 0 to index 255; otherwise it returns false. It takes the
table as a value and returns only the Boolean. -/
theorem validate_iff (out : Table) :
    (validate out = true ↔
      out 0 = 0 ∧ out 255 = 1023 ∧ (∀ i, i < 256 → out i ≤ 1023)
        ∧ (∀ i, i < 255 → out i ≤ out (i + 1)))
    ∧ (validate out = false ↔
      ¬ (out 0 = 0 ∧ out 255 = 1023 ∧ (∀ i, i < 256 → out i ≤ 1023)
        ∧ (∀ i, i < 255 → out i ≤ out (i + 1)))) := by
  refine ⟨validate_true_iff out, ?_⟩
  rw [← validate_true_iff out]
  cases validate out <;> simp

/-! ## The clamp -/

theorem clampPwm_neg (v : Int) (h : v < 0) : clampPwm v = 0 := by
  unfold clampPwm
  rw [if_pos h]

theorem clampPwm_big (v : Int) (h : 1023 < v) : clampPwm v = 1023 := by
  unfold clampPwm PWM_MAX
  have h2 : ¬ v < 0 := by omega
  have h3 : v > ((1023 : Nat) : Int) := by omega
  rw [if_neg h2, if_pos h3]

theorem clampPwm_mid (v : Int) (h0 : 0 ≤ v) (h1 : v ≤ 1023) : (clampPwm v : Int) = v := by
  unfold clampPwm toUInt16 PWM_MAX
  have h2 : ¬ v < 0 := by omega
  have h3 : ¬ v > ((1023 : Nat) : Int) := by omega
  rw [if_neg h2, if_neg h3]
  omega

/-- C5: `clampPwm v` is 0 when `v < 0`, 1023 when `v > 1023`, and `v` itself
when `0 <= v <= 1023`, for every integer `v` (so for every `int32_t`). -/
theorem clampPwm_cases (v : Int) :
    (v < 0 → clampPwm v = 0) ∧ (1023 < v → clampPwm v = 1023)
    ∧ (0 ≤ v → v ≤ 1023 → (clampPwm v : Int) = v) :=
  ⟨clampPwm_neg v, clampPwm_big v, clampPwm_mid v⟩

/-- Witness of C5 at `-5`, `2000` and `512`. -/
theorem clampPwm_cases_witness :
    clampPwm (-5) = 0 ∧ clampPwm 2000 = 1023 ∧ (clampPwm 512 : Int) = 512 :=
  ⟨(clampPwm_cases (-5)).1 (by decide), (clampPwm_cases 2000).2.1 (by decide),
    (clampPwm_cases 512).2.2 (by decide) (by decide)⟩

/-- C6: for every integer `v`, `clampPwm v` lies in `0..1023` and clamping it
again returns it unchanged. -/
theorem clampPwm_idempotent (v : Int) :
    (0 : Int) ≤ (clampPwm v : Int) ∧ (clampPwm v : Int) ≤ 1023
    ∧ clampPwm (clampPwm v : Int) = clampPwm v := by
  have h := clampPwm_le v
  refine ⟨by omega, by omega, ?_⟩
  have h2 := clampPwm_mid (clampPwm v : Int) (by omega) (by omega)
  exact_mod_cast h2

/-! ## The linear table -/

/-- On a finite argument whose nearest integer fits 32 bits, `lroundf`
returns that integer, and the cast to `int32_t` keeps it. -/
theorem toInt32_lroundf_fin (L : Libm) (s : Bool) (m : Nat) (e : Int)
    (h0 : -(2147483648 : Int) ≤ F32.roundAway s m e)
    (h1 : F32.roundAway s m e < 2147483648) :
    toInt32 (lroundf L (F32.fin s m e)) = F32.roundAway s m e := by
  have hp : (2 : Int) ^ 31 ≤ (2 : Int) ^ (L.longBits - 1) :=
    pow_le_pow_right₀ (by norm_num) (by have := L.longBits_ge; omega)
  have h31 : (2 : Int) ^ 31 = 2147483648 := by norm_num
  have hl : lroundf L (F32.fin s m e) = F32.roundAway s m e := by
    unfold lroundf
    dsimp only
    rw [if_pos]
    constructor <;> omega
  rw [hl]
  unfold toInt32
  have h32 : (2 : Int) ^ 32 = 4294967296 := by norm_num
  rw [h31, h32]
  omega

set_option maxRecDepth 100000 in
/-- Evaluation of the 256 samples of `linear` in binary32 arithmetic: at every
index the product is finite and its nearest integer is
`(2046 * i + 255) / 510`. -/
theorem linear_samples_eval :
    (List.range 256).all (fun i => linearSampleIs i (((2046 * i + 255) / 510 : Nat) : Int))
      = true := by
  decide!

/-- Entry `i` of the linear table, for every C library and every initial
content of the caller's table. -/
theorem linear_entry (L : Libm) (out : Table) (i : Nat) (hi : i < 256) :
    linear L out i = (2046 * i + 255) / 510 := by
  have hs : linearSampleIs i (((2046 * i + 255) / 510 : Nat) : Int) = true := by
    have h := linear_samples_eval
    rw [List.all_eq_true] at h
    exact h i (List.mem_range.mpr hi)
  have hv : (2046 * i + 255) / 510 ≤ 1023 := by omega
  have hpwm : toPwm L (xOf i) = (((2046 * i + 255) / 510 : Nat) : Int) := by
    unfold linearSampleIs at hs
    unfold toPwm
    split at hs
    · rename_i s m e heq
      rw [heq]
      have hr : F32.roundAway s m e = (((2046 * i + 255) / 510 : Nat) : Int) := by
        simpa using hs
      rw [toInt32_lroundf_fin L s m e (by omega) (by omega), hr]
    · exact absurd hs (by simp)
  have happ : linear L out i
      = if i = 255 then 1023 else if i = 0 then 0
        else if 0 ≤ i ∧ i < 256 then clampPwm (toPwm L (xOf i)) else out i :=
    enforce_forLoop_apply (fun i => clampPwm (toPwm L (xOf i))) _ (fun _ _ => rfl) 0 out i
  rw [happ]
  split
  · omega
  · split
    · omega
    · rw [if_pos ⟨by omega, hi⟩, hpwm]
      have := clampPwm_mid (((2046 * i + 255) / 510 : Nat) : Int) (by omega) (by omega)
      exact_mod_cast this

/-- The spec's entry `round(i/255 × 1023)` in integer arithmetic. -/
theorem linearSpec_eq (i : Nat) : linearSpec i = (((2046 * i + 255) / 510 : Nat) : Int) := by
  unfold linearSpec roundHalfAway
  have h0 : (0 : ℚ) ≤ (i : ℚ) / 255 * 1023 := by positivity
  rw [if_pos h0]
  have h1 : (i : ℚ) / 255 * 1023 + 1 / 2 = (((2046 * i + 255 : ℕ) : ℚ)) / ((510 : ℕ) : ℚ) := by
    push_cast
    ring
  rw [h1, Rat.floor_natCast_div_natCast]
  norm_cast

/-- C7: for every index `i` in `0..255`, entry `i` of the table `linear`
produces equals `round(i/255 × 1023)` with ties away from zero; it is the
nearest integer to `i*341/85`, at distance less than one half (never a tie). -/
theorem linear_matches_spec (L : Libm) (out : Table) (i : Nat) (hi : i < 256) :
    (linear L out i : Int) = linearSpec i
    ∧ |((linear L out i : Nat) : ℚ) - (i : ℚ) * 341 / 85| < 1 / 2 := by
  rw [linearSpec_eq, linear_entry L out i hi]
  refine ⟨rfl, ?_⟩
  have ha : 510 * ((2046 * i + 255) / 510) ≤ 2046 * i + 254 := by omega
  have hb : 2046 * i + 255 < 510 * ((2046 * i + 255) / 510) + 510 := by omega
  have ha' : (510 : ℚ) * (((2046 * i + 255) / 510 : Nat) : ℚ) ≤ 2046 * (i : ℚ) + 254 := by
    exact_mod_cast ha
  have hb' : 2046 * (i : ℚ) + 255 < 510 * (((2046 * i + 255) / 510 : Nat) : ℚ) + 510 := by
    exact_mod_cast hb
  rw [abs_lt]
  constructor <;> linarith

/-- Witness of C7 at index 100, where the entry is 401. -/
theorem linear_matches_spec_witness :
    100 < 256
    ∧ ((linear sampleLibm zeroTable 100 : Int) = linearSpec 100
      ∧ |((linear sampleLibm zeroTable 100 : Nat) : ℚ) - ((100 : Nat) : ℚ) * 341 / 85| < 1 / 2) :=
  ⟨by decide, linear_matches_spec sampleLibm zeroTable 100 (by decide)⟩

/-- C8: the table `linear` produces is strictly increasing: for every `i` in
`0..254`, `out[i] < out[i+1]`. -/
theorem linear_strictly_increasing (L : Libm) (out : Table) (i : Nat) (hi : i < 255) :
    linear L out i < linear L out (i + 1) := by
  rw [linear_entry L out i (by omega), linear_entry L out (i + 1) (by omega)]
  omega

/-- Witness of C8 at the last step, index 254. -/
theorem linear_strictly_increasing_witness :
    254 < 255 ∧ linear sampleLibm zeroTable 254 < linear sampleLibm zeroTable (254 + 1) :=
  ⟨by decide, linear_strictly_increasing sampleLibm zeroTable 254 (by decide)⟩

/-- The linear table passes `validate`, for every C library and every
initial content of the caller's table. -/
theorem linear_validates (L : Libm) (out : Table) : validate (linear L out) = true := by
  rw [validate_true_iff]
  refine ⟨(linear_ends L out).1, (linear_ends L out).2, fun i hi => linear_le L out i hi,
    fun i hi => ?_⟩
  rw [linear_entry L out i (by omega), linear_entry L out (i + 1) (by omega)]
  omega

/-! ## Fallbacks to the linear table -/

/-- A `float` that is NaN, or compares `<= 0.0f`, does not compare `> 0.0f`. -/
theorem F32.not_gt_zero (g : F32) (h : g = F32.nan ∨ F32.le g F32.zero = true) :
    F32.gt g F32.zero = false := by
  rcases h with h | h
  · subst h
    rfl
  · cases g with
    | nan => rfl
    | inf s =>
      cases s
      · exact absurd h (by decide)
      · rfl
    | fin s m e =>
      simp only [F32.le, F32.lt, F32.eq, F32.zero, F32.signed, Bool.or_eq_true,
        decide_eq_true_eq] at h
      simp only [F32.gt, F32.lt, F32.zero, F32.signed, decide_eq_false_iff_not]
      rw [min_comm 0 e]
      simp only [Bool.false_eq_true, if_false] at h ⊢
      omega

/-- C9: for every `g` that is NaN or compares `<= 0.0f` (negative numbers,
both zeros, minus infinity), `gamma` leaves in the caller's table exactly the
table `linear` leaves there. -/
theorem gamma_fallback (L : Libm) (out : Table) (g : F32)
    (h : g = F32.nan ∨ F32.le g F32.zero = true) :
    gamma L out g = linear L out := by
  unfold gamma
  rw [F32.not_gt_zero g h]
  rfl

/-- Witness of C9 at `-0.0f`, and also at minus infinity and at NaN. -/
theorem gamma_fallback_witness :
    (F32.fin true 0 0 = F32.nan ∨ F32.le (F32.fin true 0 0) F32.zero = true)
    ∧ gamma sampleLibm zeroTable (F32.fin true 0 0) = linear sampleLibm zeroTable
    ∧ gamma sampleLibm zeroTable (F32.inf true) = linear sampleLibm zeroTable
    ∧ gamma sampleLibm zeroTable F32.nan = linear sampleLibm zeroTable :=
  ⟨Or.inr (by decide),
    gamma_fallback sampleLibm zeroTable (F32.fin true 0 0) (Or.inr (by decide)),
    gamma_fallback sampleLibm zeroTable (F32.inf true) (Or.inr (by decide)),
    gamma_fallback sampleLibm zeroTable F32.nan (Or.inl rfl)⟩

/-- A `float` that compares `> 0.0f` does not compare `== 0.0f`. -/
theorem F32.eq_zero_of_gt (k : F32) (h : F32.gt k F32.zero = true) :
    F32.eq k F32.zero = false := by
  cases k with
  | nan => rfl
  | inf s => rfl
  | fin s m e =>
    simp only [F32.gt, F32.lt, F32.zero, F32.signed, decide_eq_true_eq] at h
    simp only [F32.eq, F32.zero, F32.signed, decide_eq_false_iff_not]
    rw [min_comm 0 e] at h
    simp only [Bool.false_eq_true, if_false] at h ⊢
    omega

/-- A `float` that compares `< 0.0f` does not compare `> 0.0f`. -/
theorem F32.not_gt_of_lt (k : F32) (h : F32.lt k F32.zero = true) :
    F32.gt k F32.zero = false :=
  F32.not_gt_zero k (Or.inr (by unfold F32.le; rw [h]; rfl))

/-- The path `exponential` takes: the shaping loop when `k > 0.0f` and the
denominator `expf(k) - 1.0f` is finite and not `== 0.0f`, and `linear`
otherwise. -/
theorem exponential_path (L : Libm) (out : Table) (k : F32) :
    exponential L out k
      = if F32.gt k F32.zero = true ∧ F32.isfinite (F32.sub (L.expf k) F32.one) = true
            ∧ F32.eq (F32.sub (L.expf k) F32.one) F32.zero = false
        then exponentialShaping L out k (F32.sub (L.expf k) F32.one)
        else linear L out := by
  unfold exponential
  have hge : F32.ge k F32.zero = (F32.gt k F32.zero || F32.eq k F32.zero) := rfl
  rw [hge]
  cases hgt : F32.gt k F32.zero
  · cases heq : F32.eq k F32.zero <;> simp
  · rw [F32.eq_zero_of_gt k hgt]
    cases hd : F32.eq (F32.sub (L.expf k) F32.one) F32.zero <;>
      cases hf : F32.isfinite (F32.sub (L.expf k) F32.one) <;> simp [hd, hf]

/-- C10: `exponential` leaves exactly the table of `linear` whenever `k` is
NaN, `k < 0`, `k == 0`, or the denominator `expf(k) - 1.0f` is `== 0.0f` or
not finite; the shaping loop runs exactly when `k > 0` and the denominator is
finite and not `== 0.0f`. -/
theorem exponential_fallback (L : Libm) (out : Table) (k : F32) :
    ((k = F32.nan ∨ F32.lt k F32.zero = true ∨ F32.eq k F32.zero = true
        ∨ F32.eq (F32.sub (L.expf k) F32.one) F32.zero = true
        ∨ F32.isfinite (F32.sub (L.expf k) F32.one) = false)
      → exponential L out k = linear L out)
    ∧ exponential L out k
      = (if F32.gt k F32.zero = true ∧ F32.isfinite (F32.sub (L.expf k) F32.one) = true
            ∧ F32.eq (F32.sub (L.expf k) F32.one) F32.zero = false
        then exponentialShaping L out k (F32.sub (L.expf k) F32.one)
        else linear L out) := by
  refine ⟨fun h => ?_, exponential_path L out k⟩
  rw [exponential_path]
  apply if_neg
  rintro ⟨hgt, hfin, hne⟩
  rcases h with h | h | h | h | h
  · subst h
    exact absurd hgt (by decide)
  · rw [F32.not_gt_of_lt k h] at hgt
    exact absurd hgt (by decide)
  · rw [F32.eq_zero_of_gt k hgt] at h
    exact absurd h (by decide)
  · rw [hne] at h
    exact absurd h (by decide)
  · rw [hfin] at h
    exact absurd h (by decide)

/-- Witness of C10 at `k = 0.0f`, at `k = -2`, and at `k = 1.0f` with the
stand-in library, whose denominator `1 - 1` is zero. -/
theorem exponential_fallback_witness :
    exponential sampleLibm zeroTable F32.zero = linear sampleLibm zeroTable
    ∧ exponential sampleLibm zeroTable (F32.fin true 1 1) = linear sampleLibm zeroTable
    ∧ exponential sampleLibm zeroTable F32.one = linear sampleLibm zeroTable :=
  ⟨(exponential_fallback sampleLibm zeroTable F32.zero).1 (Or.inr (Or.inr (Or.inl (by decide)))),
    (exponential_fallback sampleLibm zeroTable (F32.fin true 1 1)).1 (Or.inr (Or.inl (by decide))),
    (exponential_fallback sampleLibm zeroTable F32.one).1
      (Or.inr (Or.inr (Or.inr (Or.inl (by decide)))))⟩

/-! ## Generators as sanitising followed by shaping -/

theorem ledHybrid_eq_shaping (L : Libm) (out : Table) (t gammaLow gammaHigh : F32) :
    ledHybrid L out t gammaLow gammaHigh
      = hybridShaping L true out (sanitizeThreshold t)
          (sanitizeGamma (F32.ofRatio 3 1) gammaLow)
          (sanitizeGamma (F32.ofRatio 22 10) gammaHigh) := rfl

theorem ledLowEndBoost_eq_shaping (L : Libm) (out : Table) (g : F32) (pwmMin : Nat) :
    ledLowEndBoost L out g pwmMin
      = lowEndBoostShaping L out (sanitizeGamma (F32.ofRatio 22 10) g) (sanitizeFloor pwmMin) :=
  rfl

theorem ledSCurve_eq_shaping (L : Libm) (out : Table) (g : F32) :
    ledSCurve L out g = sCurveShaping L out (sanitizeGamma (F32.ofRatio 22 10) g) := rfl

/-! ## Comparisons with `0.0f` and `1.0f` -/

/-- A `float` that does not compare `> 0.0f` is NaN or compares `<= 0.0f`. -/
theorem F32.nan_or_le_of_not_gt (g : F32) (h : F32.gt g F32.zero = false) :
    g = F32.nan ∨ F32.le g F32.zero = true := by
  cases g with
  | nan => exact Or.inl rfl
  | inf s =>
    cases s
    · exact absurd h (by decide)
    · exact Or.inr rfl
  | fin s m e =>
    right
    simp only [F32.gt, F32.lt, F32.zero, F32.signed, decide_eq_false_iff_not] at h
    simp only [F32.le, F32.lt, F32.eq, F32.zero, F32.signed, Bool.or_eq_true,
      decide_eq_true_eq]
    rw [min_comm 0 e] at h
    simp only [Bool.false_eq_true, if_false] at h ⊢
    omega

/-- The test `!(g > 0.0f)` of the source holds exactly of the values the spec
calls non-positive or NaN. -/
theorem F32.not_gt_zero_iff (g : F32) :
    F32.gt g F32.zero = false ↔ (g = F32.nan ∨ F32.le g F32.zero = true) :=
  ⟨F32.nan_or_le_of_not_gt g, F32.not_gt_zero g⟩

/-- A `float` that is not NaN and does not compare `> 1.0f` compares `<= 1.0f`. -/
theorem F32.le_one_of_not_gt (t : F32) (hn : t ≠ F32.nan) (h : F32.gt t F32.one = false) :
    F32.le t F32.one = true := by
  cases t with
  | nan => exact absurd rfl hn
  | inf s =>
    cases s
    · exact absurd h (by decide)
    · rfl
  | fin s m e =>
    simp only [F32.gt, F32.lt, F32.one, F32.signed, decide_eq_false_iff_not] at h
    simp only [F32.le, F32.lt, F32.eq, F32.one, F32.signed, Bool.or_eq_true,
      decide_eq_true_eq]
    rw [min_comm (-23) e] at h
    simp only [Bool.false_eq_true, if_false] at h ⊢
    omega

theorem F32.ne_nan_of_gt_zero (t : F32) (h : F32.gt t F32.zero = true) : t ≠ F32.nan := by
  rintro rfl
  exact absurd h (by decide)

/-! ## Sanitised parameters -/

theorem sanitizeGamma_of_gt (d g : F32) (h : F32.gt g F32.zero = true) :
    sanitizeGamma d g = g := by
  unfold sanitizeGamma
  rw [h]
  rfl

theorem sanitizeGamma_of_not_gt (d g : F32) (h : F32.gt g F32.zero = false) :
    sanitizeGamma d g = d := by
  unfold sanitizeGamma
  rw [h]
  rfl

theorem sanitizeGamma_eq_spec (d g : F32) : sanitizeGamma d g = specGamma d g := by
  unfold specGamma
  cases h : F32.gt g F32.zero
  · rw [sanitizeGamma_of_not_gt d g h, if_pos ((F32.not_gt_zero_iff g).mp h)]
  · rw [sanitizeGamma_of_gt d g h, if_neg]
    intro hc
    rw [(F32.not_gt_zero_iff g).mpr hc] at h
    exact absurd h (by decide)

theorem sanitizeGamma_idem (d g : F32) (hd : F32.gt d F32.zero = true) :
    sanitizeGamma d (sanitizeGamma d g) = sanitizeGamma d g := by
  cases h : F32.gt g F32.zero
  · rw [sanitizeGamma_of_not_gt d g h, sanitizeGamma_of_gt d d hd]
  · rw [sanitizeGamma_of_gt d g h, sanitizeGamma_of_gt d g h]

theorem sanitizeGamma_pos (d g : F32) (hd : F32.gt d F32.zero = true) :
    F32.gt (sanitizeGamma d g) F32.zero = true := by
  cases h : F32.gt g F32.zero
  · rw [sanitizeGamma_of_not_gt d g h, hd]
  · rw [sanitizeGamma_of_gt d g h, h]

theorem gt_default22 : F32.gt (F32.ofRatio 22 10) F32.zero = true := by decide!

theorem gt_default3 : F32.gt (F32.ofRatio 3 1) F32.zero = true := by decide!

theorem sanitizeThreshold_of_not_gt (t : F32) (h : F32.gt t F32.zero = false) :
    sanitizeThreshold t = F32.ofRatio 2 10 := by
  unfold sanitizeThreshold
  rw [h]
  have h2 : F32.gt (F32.ofRatio 2 10) F32.one = false := by decide!
  simp [h2]

theorem sanitizeThreshold_of_gt_one (t : F32) (h0 : F32.gt t F32.zero = true)
    (h1 : F32.gt t F32.one = true) : sanitizeThreshold t = F32.one := by
  unfold sanitizeThreshold
  rw [h0]
  simp [h1]

theorem sanitizeThreshold_of_mid (t : F32) (h0 : F32.gt t F32.zero = true)
    (h1 : F32.gt t F32.one = false) : sanitizeThreshold t = t := by
  unfold sanitizeThreshold
  rw [h0]
  simp [h1]

/-- After the sanitising, `t > 0.0f` holds and `t > 1.0f` does not. -/
theorem sanitizeThreshold_range (t : F32) :
    F32.gt (sanitizeThreshold t) F32.zero = true
      ∧ F32.gt (sanitizeThreshold t) F32.one = false := by
  cases h0 : F32.gt t F32.zero
  · rw [sanitizeThreshold_of_not_gt t h0]
    exact ⟨by decide!, by decide!⟩
  · cases h1 : F32.gt t F32.one
    · rw [sanitizeThreshold_of_mid t h0 h1]
      exact ⟨h0, h1⟩
    · rw [sanitizeThreshold_of_gt_one t h0 h1]
      exact ⟨by decide!, by decide!⟩

theorem sanitizeThreshold_idem (t : F32) :
    sanitizeThreshold (sanitizeThreshold t) = sanitizeThreshold t :=
  sanitizeThreshold_of_mid _ (sanitizeThreshold_range t).1 (sanitizeThreshold_range t).2

theorem sanitizeThreshold_eq_spec (t : F32) : sanitizeThreshold t = specThreshold t := by
  unfold specThreshold
  cases h0 : F32.gt t F32.zero
  · rw [sanitizeThreshold_of_not_gt t h0, if_pos ((F32.not_gt_zero_iff t).mp h0)]
  · have hc : ¬ (t = F32.nan ∨ F32.le t F32.zero = true) := by
      intro hc
      rw [(F32.not_gt_zero_iff t).mpr hc] at h0
      exact absurd h0 (by decide)
    rw [if_neg hc]
    cases h1 : F32.gt t F32.one
    · rw [sanitizeThreshold_of_mid t h0 h1]
      simp
    · rw [sanitizeThreshold_of_gt_one t h0 h1]
      simp

/-- C15: `ledHybrid` sanitises each parameter on its own: its table is the
table it produces from `t'`, `gl'`, `gh'`, where `t'` is 0.2 when `t` is
non-positive or NaN, 1.0 when `t > 1` and `t` otherwise, `gl'` is 3.0 when
`gammaLow` is non-positive or NaN, and `gh'` is 2.2 when `gammaHigh` is
non-positive or NaN; and replacing only one of the three parameters leaves
the table unchanged as well. -/
theorem ledHybrid_sanitises (L : Libm) (out : Table) (t gammaLow gammaHigh : F32) :
    ledHybrid L out t gammaLow gammaHigh
        = ledHybrid L out (specThreshold t) (specGamma (F32.ofRatio 3 1) gammaLow)
            (specGamma (F32.ofRatio 22 10) gammaHigh)
    ∧ ledHybrid L out t gammaLow gammaHigh
        = ledHybrid L out (specThreshold t) gammaLow gammaHigh
    ∧ ledHybrid L out t gammaLow gammaHigh
        = ledHybrid L out t (specGamma (F32.ofRatio 3 1) gammaLow) gammaHigh
    ∧ ledHybrid L out t gammaLow gammaHigh
        = ledHybrid L out t gammaLow (specGamma (F32.ofRatio 22 10) gammaHigh) := by
  simp only [ledHybrid_eq_shaping, ← sanitizeThreshold_eq_spec, ← sanitizeGamma_eq_spec,
    sanitizeThreshold_idem, sanitizeGamma_idem _ _ gt_default3,
    sanitizeGamma_idem _ _ gt_default22, and_self]

/-- C16: a non-positive or NaN exponent is replaced by 2.2 in
`ledLowEndBoost` and in `ledSCurve`, and a floor above 1023 is replaced by
1023 in `ledLowEndBoost`. -/
theorem gamma_and_floor_defaults (L : Libm) (out : Table) (g : F32) (pwmMin : Nat) :
    ((g = F32.nan ∨ F32.le g F32.zero = true) →
        ledLowEndBoost L out g pwmMin = ledLowEndBoost L out (F32.ofRatio 22 10) pwmMin
        ∧ ledSCurve L out g = ledSCurve L out (F32.ofRatio 22 10))
    ∧ (1023 < pwmMin → ledLowEndBoost L out g pwmMin = ledLowEndBoost L out g 1023) := by
  refine ⟨fun h => ?_, fun h => ?_⟩
  · have hg := F32.not_gt_zero g h
    simp only [ledLowEndBoost_eq_shaping, ledSCurve_eq_shaping,
      sanitizeGamma_of_not_gt _ g hg, sanitizeGamma_of_gt _ _ gt_default22, and_self]
  · have h1 : sanitizeFloor pwmMin = 1023 := by
      unfold sanitizeFloor PWM_MAX
      rw [if_pos h]
    have h2 : sanitizeFloor 1023 = 1023 := by decide
    rw [ledLowEndBoost_eq_shaping, ledLowEndBoost_eq_shaping, h1, h2]

/-- Witness of C16 at the exponent `-0.0f` and the floor 5000. -/
theorem gamma_and_floor_defaults_witness :
    (ledLowEndBoost sampleLibm zeroTable (F32.fin true 0 0) 5000
        = ledLowEndBoost sampleLibm zeroTable (F32.ofRatio 22 10) 5000
      ∧ ledSCurve sampleLibm zeroTable (F32.fin true 0 0)
        = ledSCurve sampleLibm zeroTable (F32.ofRatio 22 10))
    ∧ ledLowEndBoost sampleLibm zeroTable (F32.fin true 0 0) 5000
        = ledLowEndBoost sampleLibm zeroTable (F32.fin true 0 0) 1023 :=
  ⟨(gamma_and_floor_defaults sampleLibm zeroTable (F32.fin true 0 0) 5000).1
      (Or.inr (by decide)),
    (gamma_and_floor_defaults sampleLibm zeroTable (F32.fin true 0 0) 5000).2 (by decide)⟩

/-- With `t > 0.0f` the defensive test in the loop of `ledHybrid` changes
nothing. -/
theorem hybridValue_guard (L : Libm) (t gammaLow gammaHigh : F32) (i : Nat)
    (ht : F32.gt t F32.zero = true) :
    hybridValue L true t gammaLow gammaHigh i = hybridValue L false t gammaLow gammaHigh i := by
  unfold hybridValue
  simp [ht]

/-- C18: whatever `t`, `gammaLow` and `gammaHigh` are, the sanitised `t`
satisfies `0 < t <= 1`, so the test `t > 0.0f` in the loop always succeeds
(the branch `xn = 0` is never taken), `t` is not `== 0.0f` (the division
`x / t` never divides by zero), and `ledHybrid` without the defensive test
produces the same table. -/
theorem hybrid_guard_unreachable (L : Libm) (out : Table) (t gammaLow gammaHigh : F32) :
    F32.gt (sanitizeThreshold t) F32.zero = true
    ∧ F32.le (sanitizeThreshold t) F32.one = true
    ∧ F32.eq (sanitizeThreshold t) F32.zero = false
    ∧ ledHybridNoGuard L out t gammaLow gammaHigh = ledHybrid L out t gammaLow gammaHigh := by
  have hr := sanitizeThreshold_range t
  refine ⟨hr.1, F32.le_one_of_not_gt _ (F32.ne_nan_of_gt_zero _ hr.1) hr.2,
    F32.eq_zero_of_gt _ hr.1, ?_⟩
  rw [ledHybrid_eq_shaping]
  unfold ledHybridNoGuard hybridShaping
  simp only [hybridValue_guard L _ _ _ _ hr.1]

/-! ## The result does not depend on the caller's table -/

/-- A table filled by a one-entry-per-iteration loop over `lo..255` (with
`lo <= 1`) and then passed to `enforce_endpoints` has, in its 256 entries,
nothing left of the table the loop started from. -/
theorem enforce_forLoop_indep (f : Nat → Nat) (body : Nat → Table → Table)
    (hb : ∀ i t, body i t = t.set i (f i)) (lo : Nat) (hlo : lo ≤ 1) (t1 t2 : Table)
    (j : Nat) (hj : j < 256) :
    enforce_endpoints (forLoop lo TABLE_SIZE body t1) j
      = enforce_endpoints (forLoop lo TABLE_SIZE body t2) j := by
  rw [enforce_forLoop_apply f body hb, enforce_forLoop_apply f body hb]
  split
  · rfl
  · split
    · rfl
    · have : lo ≤ j ∧ j < 256 := by omega
      rw [if_pos this, if_pos this]

theorem linear_indep (L : Libm) (out1 out2 : Table) (i : Nat) (hi : i < 256) :
    linear L out1 i = linear L out2 i :=
  enforce_forLoop_indep (fun i => clampPwm (toPwm L (xOf i))) _ (fun _ _ => rfl) 0 (by omega)
    out1 out2 i hi

/-- C14: the table every generator leaves is a function of its parameters
only: for any two initial contents of the caller's table, the same C library
and the same parameters, the two resulting tables agree in all 256 entries. -/
theorem generators_pure (L : Libm) (out1 out2 : Table) (g k t gammaLow gammaHigh : F32)
    (pwmMin : Nat) (i : Nat) (hi : i < 256) :
    linear L out1 i = linear L out2 i
    ∧ gamma L out1 g i = gamma L out2 g i
    ∧ exponential L out1 k i = exponential L out2 k i
    ∧ daliLog L out1 i = daliLog L out2 i
    ∧ ledLowEndBoost L out1 g pwmMin i = ledLowEndBoost L out2 g pwmMin i
    ∧ ledHybrid L out1 t gammaLow gammaHigh i = ledHybrid L out2 t gammaLow gammaHigh i
    ∧ ledSCurve L out1 g i = ledSCurve L out2 g i := by
  refine ⟨linear_indep L out1 out2 i hi, ?_, ?_, ?_, ?_, ?_, ?_⟩
  · unfold gamma
    split
    · exact linear_indep L out1 out2 i hi
    · exact enforce_forLoop_indep (fun i => clampPwm (toPwm L (L.powf (xOf i) g))) _
        (fun _ _ => rfl) 0 (by omega) out1 out2 i hi
  · rw [exponential_path, exponential_path]
    split
    · unfold exponentialShaping
      exact enforce_forLoop_indep
        (fun i => clampPwm (toPwm L (clamp01 (F32.div
          (F32.sub (L.expf (F32.mul k (xOf i))) F32.one)
          (F32.sub (L.expf k) F32.one))))) _
        (fun _ _ => rfl) 0 (by omega) out1 out2 i hi
    · exact linear_indep L out1 out2 i hi
  · exact enforce_forLoop_indep
      (fun i => clampPwm (toPwm L (L.powf (F32.ofRatio 1000 1)
        (F32.div (F32.sub (F32.ofInt (if i > 254 then 254 else (i : Int)))
          (F32.ofRatio 254 1)) (F32.ofRatio 253 1))))) _
      (fun _ _ => rfl) 1 (by omega) _ _ i hi
  · unfold ledLowEndBoost
    exact enforce_forLoop_indep _ _ (fun i t => ledLowEndBoost_body L _ _ i t) 0 (by omega)
      out1 out2 i hi
  · unfold ledHybrid
    exact enforce_forLoop_indep _ _ (fun _ _ => rfl) 0 (by omega) out1 out2 i hi
  · unfold ledSCurve
    exact enforce_forLoop_indep _ _ (fun _ _ => rfl) 0 (by omega) out1 out2 i hi

/-- Witness of C14 at index 3, for a zeroed table and a table holding 65535 in
every entry. -/
theorem generators_pure_witness :
    3 < 256
    ∧ (linear sampleLibm zeroTable 3 = linear sampleLibm (fun _ => 65535) 3
      ∧ gamma sampleLibm zeroTable F32.one 3 = gamma sampleLibm (fun _ => 65535) F32.one 3
      ∧ exponential sampleLibm zeroTable F32.one 3
          = exponential sampleLibm (fun _ => 65535) F32.one 3
      ∧ daliLog sampleLibm zeroTable 3 = daliLog sampleLibm (fun _ => 65535) 3
      ∧ ledLowEndBoost sampleLibm zeroTable F32.one 500 3
          = ledLowEndBoost sampleLibm (fun _ => 65535) F32.one 500 3
      ∧ ledHybrid sampleLibm zeroTable F32.one F32.one F32.one 3
          = ledHybrid sampleLibm (fun _ => 65535) F32.one F32.one F32.one 3
      ∧ ledSCurve sampleLibm zeroTable F32.one 3
          = ledSCurve sampleLibm (fun _ => 65535) F32.one 3) :=
  ⟨by decide,
    generators_pure sampleLibm zeroTable (fun _ => 65535) F32.one F32.one F32.one F32.one
      F32.one 500 3 (by decide)⟩

/-! ## Rounding to binary32 -/

theorem log2Fuel_bounds : ∀ (fuel n : Nat), 1 ≤ n → n ≤ fuel →
    2 ^ log2Fuel fuel n ≤ n ∧ n < 2 ^ (log2Fuel fuel n + 1) := by
  intro fuel
  induction fuel with
  | zero => intro n h1 h2; omega
  | succ fuel ih =>
    intro n h1 h2
    unfold log2Fuel
    split
    · rename_i h
      have : n = 1 := by omega
      subst this
      simp
    · rename_i h
      have hn : 2 ≤ n := by omega
      have := ih (n / 2) (by omega) (by omega)
      obtain ⟨ha, hb⟩ := this
      constructor
      · rw [pow_succ]
        omega
      · rw [pow_succ]
        omega

theorem ilog2_bounds (n : Nat) (h : 1 ≤ n) : 2 ^ ilog2 n ≤ n ∧ n < 2 ^ (ilog2 n + 1) :=
  log2Fuel_bounds n n h (le_refl n)

theorem ilog2_unique (n L : Nat) (h1 : 2 ^ L ≤ n) (h2 : n < 2 ^ (L + 1)) : ilog2 n = L := by
  have hn : 1 ≤ n := le_trans (Nat.one_le_two_pow) h1
  obtain ⟨a, b⟩ := ilog2_bounds n hn
  have c1 : 2 ^ L < 2 ^ (ilog2 n + 1) := lt_of_le_of_lt h1 b
  have c2 : 2 ^ ilog2 n < 2 ^ (L + 1) := lt_of_le_of_lt a h2
  have d1 := (Nat.pow_lt_pow_iff_right (by norm_num : 1 < 2)).mp c1
  have d2 := (Nat.pow_lt_pow_iff_right (by norm_num : 1 < 2)).mp c2
  omega


theorem ilog2Ratio_one (p : Nat) (hp : p ≠ 0) : ilog2Ratio p 1 = (ilog2 p : Int) := by
  unfold ilog2Ratio
  have h1 : ilog2 1 = 0 := rfl
  have hb := (ilog2_bounds p (by omega)).1
  simp only [h1, Nat.cast_zero, sub_zero, Int.toNat_ofNat, one_mul]
  have h2 : (-(ilog2 p : Int)).toNat = 0 := by omega
  rw [h2, pow_zero, mul_one, if_pos hb]

theorem roundNE_q1 (s : Bool) (p : Nat) (e : Int) (hp : p ≠ 0) :
    roundNE s p 1 e =
      (let k : Int := max ((ilog2 p : Int) + e - 23) (-149)
       let num : Nat := p * 2 ^ (e - k).toNat
       let den : Nat := 2 ^ (k - e).toNat
       let m0 : Nat := num / den
       let r : Nat := num % den
       let m : Nat := if den < 2 * r ∨ (2 * r = den ∧ m0 % 2 = 1) then m0 + 1 else m0
       if m = 0 then F32.fin s 0 0
       else if m = 2 ^ 24 then (if 104 ≤ k then F32.inf s else F32.fin s (2 ^ 23) (k + 1))
       else if 104 < k then F32.inf s else F32.fin s m k) := by
  unfold roundNE
  rw [if_neg hp, ilog2Ratio_one p hp]
  simp only [one_mul]

theorem ilog2_mul_pow (m j : Nat) (hm : m ≠ 0) : ilog2 (m * 2 ^ j) = ilog2 m + j := by
  obtain ⟨a, b⟩ := ilog2_bounds m (by omega)
  apply ilog2_unique
  · rw [pow_add]
    exact Nat.mul_le_mul_right _ a
  · rw [show ilog2 m + j + 1 = (ilog2 m + 1) + j by omega, pow_add]
    exact Nat.mul_lt_mul_of_pos_right b (by positivity)

/-- Rounding a canonical value returns it. -/
theorem roundNE_canonical (s : Bool) (m : Nat) (e : Int) (j : Nat) (hm : m ≠ 0)
    (hc : (m < 8388608 ∧ e = -149) ∨ (8388608 ≤ m ∧ m < 16777216 ∧ -149 ≤ e ∧ e ≤ 104)) :
    roundNE s (m * 2 ^ j) 1 (e - j) = F32.fin s m e := by
  have hp : m * 2 ^ j ≠ 0 := by positivity
  rw [roundNE_q1 s _ _ hp, ilog2_mul_pow m j hm]
  obtain ⟨a, b⟩ := ilog2_bounds m (by omega)
  have hk : max (((ilog2 m + j : Nat) : Int) + (e - j) - 23) (-149) = e := by
    rcases hc with ⟨h1, h2⟩ | ⟨h1, h2, h3, h4⟩
    · have : ilog2 m < 23 := by
        have : 2 ^ ilog2 m < 2 ^ 23 := lt_of_le_of_lt a (by norm_num; exact h1)
        exact (Nat.pow_lt_pow_iff_right (by norm_num : 1 < 2)).mp this
      push_cast
      omega
    · have : ilog2 m = 23 := ilog2_unique m 23 (by norm_num; exact h1) (by norm_num; exact h2)
      rw [this]
      push_cast
      omega
  simp only [hk]
  have e1 : (e - j - e).toNat = 0 := by omega
  have e2 : (e - (e - j)).toNat = j := by omega
  rw [e1, e2]
  have hpos : 0 < 2 ^ j := by positivity
  simp only [pow_zero, mul_one, Nat.mul_div_cancel _ hpos, Nat.mul_mod_left, mul_zero]
  have hden : ¬ (2 ^ j < 0 ∨ (0 = 2 ^ j ∧ m % 2 = 1)) := by
    rintro (h | ⟨h, _⟩) <;> omega
  rw [if_neg hden, if_neg hm]
  have h24 : m ≠ 2 ^ 24 := by
    norm_num
    rcases hc with ⟨h1, _⟩ | ⟨_, h2, _, _⟩ <;> omega
  have h104 : ¬ (104 : Int) < e := by
    rcases hc with ⟨_, h2⟩ | ⟨_, _, _, h4⟩ <;> omega
  rw [if_neg h24, if_neg h104]

/-- The mantissa before rounding lies below `2^24`, and at or above `2^23`
when the exponent is not the least one. -/
theorem roundNE_mantissa (p : Nat) (e k : Int) (hp : p ≠ 0)
    (hk : k = max ((ilog2 p : Int) + e - 23) (-149)) :
    p * 2 ^ (e - k).toNat / 2 ^ (k - e).toNat < 16777216
    ∧ (-149 < k → 8388608 ≤ p * 2 ^ (e - k).toNat / 2 ^ (k - e).toNat) := by
  obtain ⟨hl, hu⟩ := ilog2_bounds p (by omega)
  have hB : 0 < 2 ^ (k - e).toNat := by positivity
  constructor
  · apply Nat.div_lt_of_lt_mul
    calc p * 2 ^ (e - k).toNat < 2 ^ (ilog2 p + 1) * 2 ^ (e - k).toNat :=
          Nat.mul_lt_mul_of_pos_right hu (by positivity)
      _ = 2 ^ (ilog2 p + 1 + (e - k).toNat) := (pow_add 2 _ _).symm
      _ ≤ 2 ^ ((k - e).toNat + 24) := Nat.pow_le_pow_right (by norm_num) (by omega)
      _ = 2 ^ (k - e).toNat * 16777216 := by rw [pow_add]; norm_num
  · intro hk2
    rw [Nat.le_div_iff_mul_le hB]
    calc 8388608 * 2 ^ (k - e).toNat = 2 ^ (23 + (k - e).toNat) := by rw [pow_add]; norm_num
      _ ≤ 2 ^ (ilog2 p + (e - k).toNat) := Nat.pow_le_pow_right (by norm_num) (by omega)
      _ = 2 ^ ilog2 p * 2 ^ (e - k).toNat := pow_add 2 _ _
      _ ≤ p * 2 ^ (e - k).toNat := Nat.mul_le_mul_right _ hl

/-- The result of a rounding with denominator 1 is in canonical form. -/
theorem roundNE_canonical_out (s : Bool) (p : Nat) (e : Int) :
    (roundNE s p 1 e).canonical = true := by
  by_cases hp : p = 0
  · subst hp
    rfl
  · rw [roundNE_q1 s p e hp]
    obtain ⟨k, hk⟩ : ∃ k : Int, k = max ((ilog2 p : Int) + e - 23) (-149) := ⟨_, rfl⟩
    obtain ⟨h1, h2⟩ := roundNE_mantissa p e k hp hk
    simp only [← hk]
    have hkge : -149 ≤ k := by omega
    generalize p * 2 ^ (e - k).toNat / 2 ^ (k - e).toNat = m0 at h1 h2 ⊢
    generalize p * 2 ^ (e - k).toNat % 2 ^ (k - e).toNat = r
    generalize 2 ^ (k - e).toNat = den
    have h24 : (2 : Nat) ^ 24 = 16777216 := by norm_num
    have h23 : (2 : Nat) ^ 23 = 8388608 := by norm_num
    rw [h24, h23]
    split_ifs <;> simp only [F32.canonical, decide_eq_true_eq] <;> first | omega | simp


/-- Every product of two `float`s is in canonical form. -/
theorem F32.mul_canonical (a b : F32) : (F32.mul a b).canonical = true := by
  cases a <;> cases b <;> simp only [F32.mul]
  any_goals rfl
  any_goals (split <;> rfl)
  exact roundNE_canonical_out _ _ _

/-- Adding `+0` to a canonical non-zero `float` returns it. -/
theorem F32.zero_add_of_canonical (s : Bool) (m : Nat) (k : Int) (hm : m ≠ 0)
    (hc : (F32.fin s m k).canonical = true) :
    F32.add (F32.fin false 0 0) (F32.fin s m k) = F32.fin s m k := by
  simp only [F32.canonical, decide_eq_true_eq] at hc
  have hc2 : (m < 8388608 ∧ k = -149) ∨ (8388608 ≤ m ∧ m < 16777216 ∧ -149 ≤ k ∧ k ≤ 104) := by
    omega
  have hM : m * 2 ^ (k - min 0 k).toNat ≠ 0 := by positivity
  have hr := roundNE_canonical s m k (k - min 0 k).toNat hm hc2
  have hkc : k - ((k - min 0 k).toNat : Int) = min 0 k := by omega
  rw [hkc] at hr
  unfold F32.add
  simp only [F32.signed, zero_mul, Bool.false_eq_true, if_false, Nat.cast_zero, zero_add]
  cases s
  · simp only [Bool.false_eq_true, if_false]
    rw [if_neg (by exact_mod_cast hM)]
    have h1 : decide (((m * 2 ^ (k - min 0 k).toNat : Nat) : Int) < 0) = false := by
      rw [decide_eq_false_iff_not]
      omega
    rw [h1, Int.natAbs_ofNat]
    exact hr
  · simp only [if_true]
    have hpos : (0 : Int) < ((m * 2 ^ (k - min 0 k).toNat : Nat) : Int) := by
      exact_mod_cast Nat.pos_of_ne_zero hM
    rw [if_neg (by omega)]
    have h1 : decide (-((m * 2 ^ (k - min 0 k).toNat : Nat) : Int) < 0) = true := by
      rw [decide_eq_true_eq]
      omega
    rw [h1, Int.natAbs_neg, Int.natAbs_ofNat]
    exact hr

/-- On a finite argument whose nearest integer fits 32 bits, `lroundf`
returns that integer. -/
theorem lroundf_fin (L : Libm) (s : Bool) (m : Nat) (e : Int)
    (h0 : -(2147483648 : Int) ≤ F32.roundAway s m e)
    (h1 : F32.roundAway s m e < 2147483648) :
    lroundf L (F32.fin s m e) = F32.roundAway s m e := by
  have hp : (2 : Int) ^ 31 ≤ (2 : Int) ^ (L.longBits - 1) :=
    pow_le_pow_right₀ (by norm_num) (by have := L.longBits_ge; omega)
  have h31 : (2 : Int) ^ 31 = 2147483648 := by norm_num
  unfold lroundf
  dsimp only
  rw [if_pos]
  constructor <;> omega

/-- Adding `+0` to a canonical `float` does not change the integer `lroundf`
returns for it. -/
theorem lroundf_zero_add (L : Libm) (z : F32) (hz : z.canonical = true) :
    lroundf L (F32.add (F32.fin false 0 0) z) = lroundf L z := by
  cases z with
  | nan => rfl
  | inf s => rfl
  | fin s m k =>
    by_cases hm : m = 0
    · subst hm
      simp only [F32.canonical, decide_eq_true_eq] at hz
      have hk : k = 0 := by omega
      subst hk
      have h0 : ∀ t : Bool, F32.roundAway t 0 0 = 0 := by decide
      have hadd : ∀ t : Bool, F32.add (F32.fin false 0 0) (F32.fin t 0 0) = F32.fin false 0 0 := by
        decide
      rw [hadd, lroundf_fin L false 0 0 (by rw [h0]; omega) (by rw [h0]; omega),
        lroundf_fin L s 0 0 (by rw [h0]; omega) (by rw [h0]; omega), h0, h0]
    · rw [F32.zero_add_of_canonical s m k hm hz]


/-- C19: with a zero floor the low-end-boost table is the plain gamma table:
for every `g > 0.0f`, `ledLowEndBoost(out, g, 0)` and `gamma(out, g)` leave
the same table. -/
theorem lowEndBoost_zero_floor (L : Libm) (out : Table) (g : F32)
    (hg : F32.gt g F32.zero = true) :
    ledLowEndBoost L out g 0 = gamma L out g := by
  funext j
  have h0 : F32.ofInt ((0 : Nat) : Int) = F32.fin false 0 0 := by decide
  have h1 : F32.ofInt ((PWM_MAX : Int) - ((0 : Nat) : Int)) = F32.ofInt PWM_MAX := by
    simp
  have hf : sanitizeFloor 0 = 0 := by decide
  rw [ledLowEndBoost_eq_shaping, sanitizeGamma_of_gt _ g hg, hf]
  unfold lowEndBoostShaping gamma
  rw [hg]
  simp only [Bool.not_true, Bool.false_eq_true, if_false]
  rw [enforce_forLoop_apply _ _ (fun i t => ledLowEndBoost_body L g 0 i t),
    enforce_forLoop_apply (fun i => clampPwm (toPwm L (L.powf (xOf i) g))) _ (fun _ _ => rfl)]
  split
  · rfl
  · split
    · rfl
    · split
      · rename_i hj0 _
        rw [h0, h1, lroundf_zero_add L _ (F32.mul_canonical _ _)]
        rfl
      · rfl

/-- Witness of C19 at `g = 2.2f`. -/
theorem lowEndBoost_zero_floor_witness :
    F32.gt (F32.ofRatio 22 10) F32.zero = true
    ∧ ledLowEndBoost sampleLibm zeroTable (F32.ofRatio 22 10) 0
        = gamma sampleLibm zeroTable (F32.ofRatio 22 10) :=
  ⟨gt_default22, lowEndBoost_zero_floor sampleLibm zeroTable (F32.ofRatio 22 10) gt_default22⟩

/-! ## The seam of `ledHybrid` -/

/-- The value `ledHybrid` computes at an index is the low-segment formula
when `x < t` and the high-segment formula otherwise. -/
theorem hybridValue_eq (L : Libm) (t gammaLow gammaHigh : F32) (i : Nat) :
    hybridValue L false t gammaLow gammaHigh i
      = if F32.lt (xOf i) t then hybridLow L t gammaLow gammaHigh i
        else hybridHigh L gammaHigh i := rfl

set_option maxRecDepth 100000 in
/-- Counterexample to C13: for `t = 0.003f`, `gammaLow = 3.0f` and
`gammaHigh = 1.0f` (all valid), index 1 is the index nearest to `x = t`, and
there the low-segment formula gives the PWM level 7 and the high-segment
formula the level 4. -/
theorem seam_gap_counterexample :
    F32.gt (F32.ofRatio 3 1000) F32.zero = true
    ∧ F32.le (F32.ofRatio 3 1000) F32.one = true
    ∧ F32.gt (F32.ofRatio 3 1) F32.zero = true
    ∧ F32.gt F32.one F32.zero = true
    ∧ isNearestIndex (F32.ofRatio 3 1000) 1 = true
    ∧ seamPwm cubeLibm (hybridLow cubeLibm (F32.ofRatio 3 1000) (F32.ofRatio 3 1) F32.one 1) = 7
    ∧ seamPwm cubeLibm (hybridHigh cubeLibm F32.one 1) = 4 := by
  decide!

set_option maxRecDepth 100000 in
theorem xOf_facts :
    (List.range 256).all (fun i =>
      (xOf i).canonical && F32.le F32.zero (xOf i) && F32.le (xOf i) F32.one
        && decide (F32.div (xOf i) F32.one = xOf i)
        && (i == 0 || (F32.gt (xOf i) F32.zero && decide (F32.div (xOf i) (xOf i) = F32.one)))
        && (i == 255 || F32.lt (xOf i) F32.one)) = true := by
  decide!


theorem roundNE_zero (s : Bool) (e : Int) : roundNE s 0 1 e = F32.fin s 0 0 := by
  unfold roundNE
  rw [if_pos rfl]

/-- Multiplying a canonical `float` by `1.0f` returns it. -/
theorem F32.mul_one_canonical (y : F32) (hy : y.canonical = true) : F32.mul y F32.one = y := by
  cases y with
  | nan => rfl
  | inf s => cases s <;> rfl
  | fin s m e =>
    simp only [F32.canonical, decide_eq_true_eq] at hy
    simp only [F32.mul, F32.one, Bool.xor_false]
    by_cases hm : m = 0
    · subst hm
      have he : e = 0 := by omega
      subst he
      rw [Nat.zero_mul, roundNE_zero]
    · have h := roundNE_canonical s m e 23 hm (by omega)
      have h23 : (2 : Nat) ^ 23 = 8388608 := by norm_num
      rw [h23] at h
      have he : e - ((23 : Nat) : Int) = e + -23 := by push_cast; ring
      rw [he] at h
      exact h

/-- Multiplying `1.0f` by a canonical `float` returns it. -/
theorem F32.one_mul_canonical (y : F32) (hy : y.canonical = true) : F32.mul F32.one y = y := by
  cases y with
  | nan => rfl
  | inf s => cases s <;> rfl
  | fin s m e =>
    simp only [F32.canonical, decide_eq_true_eq] at hy
    simp only [F32.mul, F32.one, Bool.false_xor]
    by_cases hm : m = 0
    · subst hm
      have he : e = 0 := by omega
      subst he
      rw [Nat.mul_zero, roundNE_zero]
    · have h := roundNE_canonical s m e 23 hm (by omega)
      have h23 : (2 : Nat) ^ 23 = 8388608 := by norm_num
      rw [h23] at h
      have he : e - ((23 : Nat) : Int) = -23 + e := by push_cast; ring
      rw [he, Nat.mul_comm] at h
      exact h

theorem xOf_fact (i : Nat) (hi : i < 256) :
    (xOf i).canonical = true ∧ F32.le F32.zero (xOf i) = true ∧ F32.le (xOf i) F32.one = true
    ∧ F32.div (xOf i) F32.one = xOf i
    ∧ (i ≠ 0 → F32.gt (xOf i) F32.zero = true ∧ F32.div (xOf i) (xOf i) = F32.one)
    ∧ (i ≠ 255 → F32.lt (xOf i) F32.one = true) := by
  have h := xOf_facts
  rw [List.all_eq_true] at h
  have hi2 := h i (List.mem_range.mpr hi)
  simp only [Bool.and_eq_true, Bool.or_eq_true, beq_iff_eq, decide_eq_true_eq] at hi2
  obtain ⟨⟨⟨⟨⟨h1, h2⟩, h3⟩, h4⟩, h5⟩, h6⟩ := hi2
  refine ⟨h1, h2, h3, h4, fun h0 => ?_, fun h255 => ?_⟩
  · rcases h5 with h5 | h5
    · exact absurd h5 h0
    · exact h5
  · rcases h6 with h6 | h6
    · exact absurd h6 h255
    · exact h6

theorem roundNE_ne_nan (s : Bool) (p q : Nat) (e : Int) : roundNE s p q e ≠ F32.nan := by
  unfold roundNE
  simp only []
  split_ifs <;> simp

/-- A table position is a finite `float`. -/
theorem xOf_fin (i : Nat) (hi : i < 256) : ∃ s m e, xOf i = F32.fin s m e := by
  have h0 := (xOf_fact i hi).2.1
  have h1 := (xOf_fact i hi).2.2.1
  generalize xOf i = a at h0 h1
  cases a with
  | nan => exact absurd h0 (by decide)
  | inf s =>
    cases s
    · exact absurd h1 (by decide)
    · exact absurd h0 (by decide)
  | fin s m e => exact ⟨s, m, e, rfl⟩

/-- The threshold itself is a nearest position: the distance from `t` to `t`
is `+0`, and `+0 <=` every distance. -/
theorem isNearestIndex_self (i : Nat) (hi : i < 256) : isNearestIndex (xOf i) i = true := by
  unfold isNearestIndex
  rw [List.all_eq_true]
  intro j hj
  obtain ⟨s, m, e, ha⟩ := xOf_fin i hi
  obtain ⟨t, n, f, hb⟩ := xOf_fin j (List.mem_range.mp hj)
  rw [ha, hb]
  have h0 : F32.sub (F32.fin s m e) (F32.fin s m e) = F32.fin false 0 0 := by
    simp only [F32.sub, F32.neg, F32.add, min_self, sub_self, Int.toNat_zero, pow_zero,
      mul_one, F32.signed]
    cases s <;> simp
  have hd : F32.sub (F32.fin t n f) (F32.fin s m e) ≠ F32.nan := by
    simp only [F32.sub, F32.neg, F32.add]
    split_ifs
    · simp
    · exact roundNE_ne_nan _ _ _ _
  rw [h0]
  generalize F32.sub (F32.fin t n f) (F32.fin s m e) = d at hd
  cases d with
  | nan => exact absurd rfl hd
  | inf u => rfl
  | fin u k g =>
    simp only [F32.abs, F32.le, F32.lt, F32.eq, F32.signed, Bool.or_eq_true,
      decide_eq_true_eq, Bool.false_eq_true, if_false]
    have : (0 : Int) ≤ ((k * 2 ^ (g - min 0 g).toNat : Nat) : Int) := Int.natCast_nonneg _
    simp only [zero_mul, Nat.cast_zero]
    omega


/-- If `a <= b` holds then `b < a` does not. -/
theorem F32.not_lt_of_le (a b : F32) (h : F32.le a b = true) : F32.lt b a = false := by
  cases a with
  | nan => cases b <;> exact absurd h (by simp [F32.le, F32.lt, F32.eq])
  | inf s =>
    cases b with
    | nan => exact absurd h (by simp [F32.le, F32.lt, F32.eq])
    | inf t => cases s <;> cases t <;> first | rfl | exact absurd h (by decide)
    | fin t n f =>
      cases s
      · exact absurd h (by simp [F32.le, F32.lt, F32.eq])
      · rfl
  | fin s m e =>
    cases b with
    | nan => exact absurd h (by simp [F32.le, F32.lt, F32.eq])
    | inf t =>
      cases t
      · rfl
      · exact absurd h (by simp [F32.le, F32.lt, F32.eq])
    | fin t n f =>
      simp only [F32.le, F32.lt, F32.eq, Bool.or_eq_true, decide_eq_true_eq] at h
      simp only [F32.lt, decide_eq_false_iff_not]
      rw [min_comm f e]
      omega

/-- The function `clamp01` returns a value of `[0, 1]` unchanged. -/
theorem clamp01_of_unit (y : F32) (h0 : F32.le F32.zero y = true) (h1 : F32.le y F32.one = true) :
    clamp01 y = y := by
  unfold clamp01
  have a := F32.not_lt_of_le _ _ h0
  have b : F32.gt y F32.one = false := F32.not_lt_of_le _ _ h1
  rw [a, b]
  simp

/-- C13, as amended: when the threshold is itself a table position, `t` the
`float` `i/255` for an index `i` in `1..255` (a valid threshold, whose
nearest index is `i`), the low-segment formula and the high-segment formula
of `ledHybrid` give the same value and so the same PWM level at index `i`,
for every `gammaLow` and `gammaHigh`, provided `powf(1, y)` is 1 and `powf`
returns canonical data. -/
theorem seam_on_grid (L : Libm) (hone : L.powfOneBase) (hcan : L.powfCanonical)
    (i : Nat) (h1 : 1 ≤ i) (h2 : i < 256) (gammaLow gammaHigh : F32) :
    F32.gt (xOf i) F32.zero = true ∧ F32.le (xOf i) F32.one = true
    ∧ isNearestIndex (xOf i) i = true
    ∧ hybridLow L (xOf i) gammaLow gammaHigh i = hybridHigh L gammaHigh i
    ∧ seamPwm L (hybridLow L (xOf i) gammaLow gammaHigh i)
        = seamPwm L (hybridHigh L gammaHigh i) := by
  obtain ⟨hc, _, hle, _, h5, _⟩ := xOf_fact i h2
  obtain ⟨hgt, hdiv⟩ := h5 (by omega)
  have heq : hybridLow L (xOf i) gammaLow gammaHigh i = hybridHigh L gammaHigh i := by
    unfold hybridLow hybridHigh
    rw [hdiv, hone gammaLow, F32.one_mul_canonical _ (hcan _ _ hc)]
  exact ⟨hgt, hle, isNearestIndex_self i h2, heq, by rw [heq]⟩

theorem sampleLibm_powfCanonical : sampleLibm.powfCanonical := fun _ _ h => h

theorem sampleLibm_powfOneBase : sampleLibm.powfOneBase := fun _ => rfl

theorem sampleLibm_powfUnit : sampleLibm.powfUnit := fun _ _ h0 h1 _ => ⟨h0, h1⟩

/-- Witness of the amended C13 at index 51, the threshold `0.2`, for the
stand-in library. -/
theorem seam_on_grid_witness :
    (sampleLibm.powfOneBase ∧ sampleLibm.powfCanonical ∧ 1 ≤ 51 ∧ 51 < 256)
    ∧ seamPwm sampleLibm (hybridLow sampleLibm (xOf 51) (F32.ofRatio 3 1) (F32.ofRatio 22 10) 51)
        = seamPwm sampleLibm (hybridHigh sampleLibm (F32.ofRatio 22 10) 51) :=
  ⟨⟨sampleLibm_powfOneBase, sampleLibm_powfCanonical, by decide, by decide⟩,
    (seam_on_grid sampleLibm sampleLibm_powfOneBase sampleLibm_powfCanonical 51 (by decide)
      (by decide) (F32.ofRatio 3 1) (F32.ofRatio 22 10)).2.2.2.2⟩

/-! ## The threshold at 1 -/

/-- A `float` that compares `> 1.0f` compares `> 0.0f`. -/
theorem F32.gt_zero_of_gt_one (t : F32) (h : F32.gt t F32.one = true) :
    F32.gt t F32.zero = true := by
  cases t with
  | nan => exact absurd h (by decide)
  | inf s =>
    cases s
    · rfl
    · exact absurd h (by decide)
  | fin s m e =>
    simp only [F32.gt, F32.lt, F32.one, F32.signed, decide_eq_true_eq, Bool.false_eq_true,
      if_false] at h
    simp only [F32.gt, F32.lt, F32.zero, F32.signed, decide_eq_true_eq, Bool.false_eq_true,
      if_false, zero_mul, Nat.cast_zero]
    cases s
    · simp only [Bool.false_eq_true, if_false] at h ⊢
      have hm : 0 < m := by
        rcases Nat.eq_zero_or_pos m with h0 | h0
        · subst h0
          simp only [zero_mul, Nat.cast_zero] at h
          have : (0 : Int) ≤ ((8388608 * 2 ^ (-23 - min (-23) e).toNat : Nat) : Int) :=
            Int.natCast_nonneg _
          push_cast at this
          omega
        · exact h0
      have : 0 < m * 2 ^ (e - min 0 e).toNat := by positivity
      exact_mod_cast this
    · simp only [if_true] at h
      have h1 : (0 : Int) ≤ ((8388608 * 2 ^ (-23 - min (-23) e).toNat : Nat) : Int) :=
        Int.natCast_nonneg _
      have h2 : (0 : Int) ≤ ((m * 2 ^ (e - min (-23) e).toNat : Nat) : Int) :=
        Int.natCast_nonneg _
      push_cast at h1 h2
      omega

theorem sanitizeThreshold_of_ge_one (t : F32) (ht : F32.gt t F32.one = true ∨ t = F32.one) :
    sanitizeThreshold t = F32.one := by
  rcases ht with h | h
  · exact sanitizeThreshold_of_gt_one t (F32.gt_zero_of_gt_one t h) h
  · subst h
    exact sanitizeThreshold_of_mid _ (by decide) (by decide)

/-- With the threshold 1 the value `ledHybrid` computes below the last index
is `powf(x, gammaLow)`, and `clamp01` keeps it. -/
theorem hybridValue_threshold_one (L : Libm) (hone : L.powfOneBase) (hcan : L.powfCanonical)
    (hunit : L.powfUnit) (gammaLow gammaHigh : F32) (hgl : F32.gt gammaLow F32.zero = true)
    (i : Nat) (hi : i < 255) :
    clamp01 (hybridValue L true F32.one gammaLow gammaHigh i) = L.powf (xOf i) gammaLow := by
  obtain ⟨hc, h0, h1, hdiv, _, hlt⟩ := xOf_fact i (by omega)
  have hlt2 := hlt (by omega)
  have hg1 : F32.gt F32.one F32.zero = true := by decide
  unfold hybridValue
  simp only [hlt2, if_true, hg1, hdiv, hone gammaHigh]
  rw [F32.mul_one_canonical _ (hcan _ _ hc)]
  exact clamp01_of_unit _ (hunit _ _ h0 h1 hgl).1 (hunit _ _ h0 h1 hgl).2

/-- C20: with the threshold at 1, or clamped to 1, the hybrid table is the
gamma table of `gammaLow`: for every `t` that is `1.0f` or `> 1.0f`, every
`gammaLow > 0.0f` and every `gammaHigh`, `ledHybrid(out, t, gammaLow,
gammaHigh)` and `gamma(out, gammaLow)` leave the same table, provided `powf`
returns 1 for the base 1, returns canonical data, and maps a base in `[0, 1]`
with an exponent `> 0` into `[0, 1]`. -/
theorem hybrid_threshold_one (L : Libm) (hone : L.powfOneBase) (hcan : L.powfCanonical)
    (hunit : L.powfUnit) (out : Table) (t gammaLow gammaHigh : F32)
    (ht : F32.gt t F32.one = true ∨ t = F32.one) (hgl : F32.gt gammaLow F32.zero = true) :
    ledHybrid L out t gammaLow gammaHigh = gamma L out gammaLow := by
  funext j
  rw [ledHybrid_eq_shaping, sanitizeThreshold_of_ge_one t ht, sanitizeGamma_of_gt _ _ hgl]
  unfold hybridShaping gamma
  rw [hgl]
  simp only [Bool.not_true, Bool.false_eq_true, if_false]
  rw [enforce_forLoop_apply
      (fun i => clampPwm (toPwm L (clamp01 (hybridValue L true F32.one gammaLow
        (sanitizeGamma (F32.ofRatio 22 10) gammaHigh) i)))) _ (fun _ _ => rfl),
    enforce_forLoop_apply (fun i => clampPwm (toPwm L (L.powf (xOf i) gammaLow))) _
      (fun _ _ => rfl)]
  split
  · rfl
  · split
    · rfl
    · split
      · rename_i h255 _ hr
        rw [hybridValue_threshold_one L hone hcan hunit gammaLow _ hgl j (by omega)]
      · rfl

/-- Witness of C20 at `t = 1.5`, `gammaLow = 2.2f` and a NaN `gammaHigh`, for
the stand-in library. -/
theorem hybrid_threshold_one_witness :
    (sampleLibm.powfOneBase ∧ sampleLibm.powfCanonical ∧ sampleLibm.powfUnit
      ∧ (F32.gt (F32.ofRatio 3 2) F32.one = true ∨ F32.ofRatio 3 2 = F32.one)
      ∧ F32.gt (F32.ofRatio 22 10) F32.zero = true)
    ∧ ledHybrid sampleLibm zeroTable (F32.ofRatio 3 2) (F32.ofRatio 22 10) F32.nan
        = gamma sampleLibm zeroTable (F32.ofRatio 22 10) :=
  ⟨⟨sampleLibm_powfOneBase, sampleLibm_powfCanonical, sampleLibm_powfUnit,
      Or.inl (by decide!), gt_default22⟩,
    hybrid_threshold_one sampleLibm sampleLibm_powfOneBase sampleLibm_powfCanonical
      sampleLibm_powfUnit zeroTable (F32.ofRatio 3 2) (F32.ofRatio 22 10) F32.nan
      (Or.inl (by decide!)) gt_default22⟩

/-! ## Rounding keeps integer bounds -/

/-- A comparison `X * 2^a <= Y * 2^b` depends only on `a - b`. -/
theorem dy_iff (X Y a b a' b' : Nat) (h : (a : Int) + b' = a' + b) :
    X * 2 ^ a ≤ Y * 2 ^ b ↔ X * 2 ^ a' ≤ Y * 2 ^ b' := by
  have h' : a + b' = a' + b := by omega
  have e1 : X * 2 ^ a * 2 ^ b' = X * 2 ^ a' * 2 ^ b := by
    rw [mul_assoc, mul_assoc, ← pow_add, ← pow_add, h']
  have e2 : Y * 2 ^ b * 2 ^ b' = Y * 2 ^ b' * 2 ^ b := by ring
  constructor
  · intro hle
    have := Nat.mul_le_mul_right (2 ^ b') hle
    rw [e1, e2] at this
    exact Nat.le_of_mul_le_mul_right this (by positivity)
  · intro hle
    have := Nat.mul_le_mul_right (2 ^ b) hle
    rw [← e1, ← e2] at this
    exact Nat.le_of_mul_le_mul_right this (by positivity)

/-- Rounding a value that lies between two integers `N <= M < 2^24` gives a
finite `float` with a non-positive exponent that lies between them too. -/
theorem roundNE_between (s : Bool) (p : Nat) (e : Int) (N M : Nat) (hp : p ≠ 0)
    (hM : M < 16777216)
    (hlo : N * 2 ^ (-e).toNat ≤ p * 2 ^ e.toNat)
    (hhi : p * 2 ^ e.toNat ≤ M * 2 ^ (-e).toNat) :
    ∃ m k, roundNE s p 1 e = F32.fin s m k ∧ k ≤ 0
      ∧ N * 2 ^ (-k).toNat ≤ m ∧ m ≤ M * 2 ^ (-k).toNat := by
  obtain ⟨hl, hu⟩ := ilog2_bounds p (by omega)
  obtain ⟨k, hk⟩ : ∃ k : Int, k = max ((ilog2 p : Int) + e - 23) (-149) := ⟨_, rfl⟩
  have hLe : (ilog2 p : Int) + e < 24 := by
    have h1 : 2 ^ (ilog2 p + e.toNat) < 2 ^ (24 + (-e).toNat) := by
      calc 2 ^ (ilog2 p + e.toNat) = 2 ^ ilog2 p * 2 ^ e.toNat := pow_add 2 _ _
        _ ≤ p * 2 ^ e.toNat := Nat.mul_le_mul_right _ hl
        _ ≤ M * 2 ^ (-e).toNat := hhi
        _ < 16777216 * 2 ^ (-e).toNat := Nat.mul_lt_mul_of_pos_right hM (by positivity)
        _ = 2 ^ (24 + (-e).toNat) := by rw [pow_add]; norm_num
    have := (Nat.pow_lt_pow_iff_right (by norm_num : 1 < 2)).mp h1
    omega
  have hk0 : k ≤ 0 := by omega
  have hG1 : N * 2 ^ (-k).toNat * 2 ^ (k - e).toNat ≤ p * 2 ^ (e - k).toNat := by
    rw [mul_assoc, ← pow_add]
    exact (dy_iff N p (-e).toNat e.toNat ((-k).toNat + (k - e).toNat) (e - k).toNat
      (by omega)).mp hlo
  have hG2 : p * 2 ^ (e - k).toNat ≤ M * 2 ^ (-k).toNat * 2 ^ (k - e).toNat := by
    rw [mul_assoc, ← pow_add]
    exact (dy_iff p M e.toNat (-e).toNat (e - k).toNat ((-k).toNat + (k - e).toNat)
      (by omega)).mp hhi
  rw [roundNE_q1 s p e hp]
  simp only [← hk]
  have hden : 0 < 2 ^ (k - e).toNat := by positivity
  generalize p * 2 ^ (e - k).toNat = num at hG1 hG2 ⊢
  generalize 2 ^ (k - e).toNat = den at hG1 hG2 hden ⊢
  have hm0lo : N * 2 ^ (-k).toNat ≤ num / den := (Nat.le_div_iff_mul_le hden).mpr hG1
  have hm0hi : num / den ≤ M * 2 ^ (-k).toNat :=
    Nat.div_le_of_le_mul (by rw [mul_comm]; exact hG2)
  have hup : 0 < num % den → num / den < M * 2 ^ (-k).toNat := by
    intro hr
    by_contra hcon
    have h1 : M * 2 ^ (-k).toNat ≤ num / den := by omega
    have h2 : M * 2 ^ (-k).toNat * den ≤ num / den * den := Nat.mul_le_mul_right _ h1
    have h3 := Nat.div_add_mod num den
    have h4 : den * (num / den) = num / den * den := mul_comm _ _
    omega
  obtain ⟨m, hm, hmlo, hmhi⟩ : ∃ m,
      (if den < 2 * (num % den) ∨ (2 * (num % den) = den ∧ num / den % 2 = 1)
        then num / den + 1 else num / den) = m
      ∧ N * 2 ^ (-k).toNat ≤ m ∧ m ≤ M * 2 ^ (-k).toNat := by
    split_ifs with hc
    · have hr : 0 < num % den := by
        rcases hc with hc | ⟨hc, _⟩ <;> omega
      have := hup hr
      exact ⟨_, rfl, by omega, by omega⟩
    · exact ⟨_, rfl, hm0lo, hm0hi⟩
  rw [hm]
  by_cases h0 : m = 0
  · rw [if_pos h0]
    refine ⟨0, 0, rfl, le_refl _, ?_, Nat.zero_le _⟩
    subst h0
    have h1 : N * 2 ^ (-k).toNat = 0 := by omega
    rcases Nat.mul_eq_zero.mp h1 with h2 | h2
    · subst h2
      simp
    · exact absurd h2 (by positivity)
  · rw [if_neg h0]
    by_cases h24 : m = 2 ^ 24
    · rw [if_pos h24]
      have hkneg : k < 0 := by
        by_contra hcon
        have hk00 : k = 0 := by omega
        subst hk00
        simp only [neg_zero, Int.toNat_zero, pow_zero, mul_one] at hmhi
        norm_num at h24
        omega
      rw [if_neg (by omega)]
      have hpow : 2 ^ (-k).toNat = 2 * 2 ^ (-(k + 1)).toNat := by
        rw [show (-k).toNat = (-(k + 1)).toNat + 1 by omega, pow_succ, mul_comm]
      rw [hpow] at hmlo hmhi
      have e1 : N * (2 * 2 ^ (-(k + 1)).toNat) = 2 * (N * 2 ^ (-(k + 1)).toNat) := by ring
      have e2 : M * (2 * 2 ^ (-(k + 1)).toNat) = 2 * (M * 2 ^ (-(k + 1)).toNat) := by ring
      rw [e1] at hmlo
      rw [e2] at hmhi
      norm_num at h24
      have h23 : (2 : Nat) ^ 23 = 8388608 := by norm_num
      refine ⟨2 ^ 23, k + 1, rfl, by omega, ?_, ?_⟩
      · rw [h23]
        omega
      · rw [h23]
        omega
    · rw [if_neg h24, if_neg (by omega)]
      exact ⟨m, k, rfl, hk0, hmlo, hmhi⟩

/-- The nearest integer to a finite non-negative `float` that lies between
two integers lies between them. -/
theorem roundAway_between (m : Nat) (k : Int) (N M : Nat) (hk : k ≤ 0)
    (hlo : N * 2 ^ (-k).toNat ≤ m) (hhi : m ≤ M * 2 ^ (-k).toNat) :
    (N : Int) ≤ F32.roundAway false m k ∧ F32.roundAway false m k ≤ (M : Int) := by
  unfold F32.roundAway F32.signed
  simp only [Bool.false_eq_true, if_false]
  by_cases h0 : k = 0
  · subst h0
    simp only [neg_zero, Int.toNat_zero, pow_zero, mul_one, le_refl, if_true] at hlo hhi ⊢
    omega
  · have hneg : ¬ (0 : Int) ≤ k := by omega
    rw [if_neg hneg]
    have hpow : 2 ^ (-k).toNat = 2 * 2 ^ ((-k).toNat - 1) := by
      rw [show (-k).toNat = ((-k).toNat - 1) + 1 by omega, pow_succ, mul_comm]
      simp
    have hpos : 0 < 2 ^ ((-k).toNat - 1) := by positivity
    rw [hpow] at hlo hhi ⊢
    generalize 2 ^ ((-k).toNat - 1) = h at hlo hhi hpos ⊢
    have h1 : N ≤ (m + h) / (2 * h) := by
      rw [Nat.le_div_iff_mul_le (by omega)]
      omega
    have h2 : (m + h) / (2 * h) ≤ M := by
      have : (m + h) / (2 * h) < M + 1 := by
        apply Nat.div_lt_of_lt_mul
        have : 2 * h * (M + 1) = M * (2 * h) + 2 * h := by ring
        omega
      omega
    constructor
    · exact_mod_cast h1
    · exact_mod_cast h2


/-! ## The floor of `ledLowEndBoost` -/

/-- The conversion `(float)n` of an integer `0 <= n < 2^24` is exact. -/
theorem ofInt_exact (n : Nat) (hn : n < 16777216) :
    ∃ m k, F32.ofInt (n : Int) = F32.fin false m k ∧ k ≤ 0 ∧ m = n * 2 ^ (-k).toNat := by
  have h1 : F32.ofInt (n : Int) = roundNE false n 1 0 := by
    unfold F32.ofInt
    have : decide ((n : Int) < 0) = false := by
      rw [decide_eq_false_iff_not]
      omega
    rw [this, Int.natAbs_ofNat]
  rw [h1]
  by_cases h0 : n = 0
  · subst h0
    exact ⟨0, 0, roundNE_zero _ _, le_refl _, by simp⟩
  · obtain ⟨m, k, hr, hk, hlo, hhi⟩ := roundNE_between false n 0 n n h0 hn (le_refl _) (le_refl _)
    exact ⟨m, k, hr, hk, by omega⟩

/-- A `float` in `[0, 1]` is finite, non-negative and its magnitude is at
most 1. -/
theorem unit_fin (y : F32) (h0 : F32.le F32.zero y = true) (h1 : F32.le y F32.one = true) :
    ∃ s m e, y = F32.fin s m e ∧ (s = false ∨ m = 0) ∧ m * 2 ^ e.toNat ≤ 1 * 2 ^ (-e).toNat := by
  cases y with
  | nan => exact absurd h0 (by decide)
  | inf s =>
    cases s
    · exact absurd h1 (by decide)
    · exact absurd h0 (by decide)
  | fin s m e =>
    refine ⟨s, m, e, rfl, ?_, ?_⟩
    · simp only [F32.le, F32.lt, F32.eq, F32.zero, F32.signed, Bool.or_eq_true,
        decide_eq_true_eq, Bool.false_eq_true, if_false, zero_mul, Nat.cast_zero] at h0
      cases s
      · exact Or.inl rfl
      · right
        simp only [if_true] at h0
        have hz : m * 2 ^ (e - min 0 e).toNat = 0 := by
          have : (0 : Int) ≤ ((m * 2 ^ (e - min 0 e).toNat : Nat) : Int) := Int.natCast_nonneg _
          omega
        rcases Nat.mul_eq_zero.mp hz with h | h
        · exact h
        · exact absurd h (by positivity)
    · cases s
      · simp only [F32.le, F32.lt, F32.eq, F32.one, F32.signed, Bool.or_eq_true,
          decide_eq_true_eq, Bool.false_eq_true, if_false] at h1
        have h2 : m * 2 ^ (e - min e (-23)).toNat ≤ 8388608 * 2 ^ (-23 - min e (-23)).toNat := by
          have : ((m * 2 ^ (e - min e (-23)).toNat : Nat) : Int)
              ≤ ((8388608 * 2 ^ (-23 - min e (-23)).toNat : Nat) : Int) := by
            rcases h1 with h | h
            · exact le_of_lt h
            · exact le_of_eq h
          exact_mod_cast this
        have h3 : 8388608 * 2 ^ (-23 - min e (-23)).toNat
            = 1 * 2 ^ (23 + (-23 - min e (-23)).toNat) := by
          rw [pow_add]
          norm_num
        rw [h3] at h2
        exact (dy_iff m 1 (e - min e (-23)).toNat (23 + (-23 - min e (-23)).toNat)
          e.toNat (-e).toNat (by omega)).mp h2
      · simp only [F32.le, F32.lt, F32.eq, F32.zero, F32.signed, Bool.or_eq_true,
          decide_eq_true_eq, Bool.false_eq_true, if_false, if_true, zero_mul,
          Nat.cast_zero] at h0
        have hz : m * 2 ^ (e - min 0 e).toNat = 0 := by
          have : (0 : Int) ≤ ((m * 2 ^ (e - min 0 e).toNat : Nat) : Int) := Int.natCast_nonneg _
          omega
        rcases Nat.mul_eq_zero.mp hz with h | h
        · subst h
          simp
        · exact absurd h (by positivity)


/-- The product of a `float` in `[0, 1]` and the exact `float` of an integer
`c < 2^24` is finite, non-negative and at most `c`. -/
theorem mul_unit_bound (sy : Bool) (my : Nat) (ey : Int) (c mc : Nat) (kc : Int)
    (hs : sy = false ∨ my = 0) (hy : my * 2 ^ ey.toNat ≤ 1 * 2 ^ (-ey).toNat)
    (hc : c < 16777216) (hkc : kc ≤ 0) (hmc : mc = c * 2 ^ (-kc).toNat) :
    ∃ s1 m1 k1, F32.mul (F32.fin sy my ey) (F32.fin false mc kc) = F32.fin s1 m1 k1
      ∧ k1 ≤ 0 ∧ m1 ≤ c * 2 ^ (-k1).toNat ∧ (s1 = false ∨ m1 = 0) := by
  simp only [F32.mul, Bool.xor_false]
  by_cases hz : my * mc = 0
  · rw [hz, roundNE_zero]
    exact ⟨sy, 0, 0, rfl, le_refl _, Nat.zero_le _, Or.inr rfl⟩
  · have hmy : my ≠ 0 := fun h => hz (by rw [h, Nat.zero_mul])
    have hsy : sy = false := by
      rcases hs with h | h
      · exact h
      · exact absurd h hmy
    have h1 : my * 2 ^ ((-kc).toNat + (ey + kc).toNat) ≤ 1 * 2 ^ (-(ey + kc)).toNat :=
      (dy_iff my 1 ey.toNat (-ey).toNat ((-kc).toNat + (ey + kc).toNat) (-(ey + kc)).toNat
        (by omega)).mp hy
    have hhi : my * mc * 2 ^ (ey + kc).toNat ≤ c * 2 ^ (-(ey + kc)).toNat := by
      have h2 := Nat.mul_le_mul_left c h1
      have e1 : my * mc * 2 ^ (ey + kc).toNat
          = c * (my * 2 ^ ((-kc).toNat + (ey + kc).toNat)) := by
        rw [hmc, pow_add]
        ring
      rw [e1]
      simpa using h2
    obtain ⟨m1, k1, hr, hk, _, hmhi⟩ :=
      roundNE_between sy (my * mc) (ey + kc) 0 c hz hc (by simp) hhi
    exact ⟨sy, m1, k1, hr, hk, hmhi, Or.inl hsy⟩

/-- The sum of the exact `float` of an integer `p` and a finite non-negative
`float` that is at most `c`, with `p + c < 2^24`, is finite and lies between
`p` and `p + c`. -/
theorem add_floor_bound (p c mp : Nat) (kp : Int) (s1 : Bool) (m1 : Nat) (k1 : Int)
    (hpc : p + c < 16777216) (hkp : kp ≤ 0) (hmp : mp = p * 2 ^ (-kp).toNat)
    (hk1 : k1 ≤ 0) (hm1 : m1 ≤ c * 2 ^ (-k1).toNat) (hs1 : s1 = false ∨ m1 = 0) :
    ∃ m2 k2, F32.add (F32.fin false mp kp) (F32.fin s1 m1 k1) = F32.fin false m2 k2
      ∧ k2 ≤ 0 ∧ p * 2 ^ (-k2).toNat ≤ m2 ∧ m2 ≤ (p + c) * 2 ^ (-k2).toNat := by
  obtain ⟨cc, hcc⟩ : ∃ cc : Int, cc = min kp k1 := ⟨_, rfl⟩
  have hcc0 : cc ≤ 0 := by omega
  have hA : mp * 2 ^ (kp - cc).toNat = p * 2 ^ (-cc).toNat := by
    rw [hmp, mul_assoc, ← pow_add]
    congr 2
    omega
  have hB : m1 * 2 ^ (k1 - cc).toNat ≤ c * 2 ^ (-cc).toNat := by
    have h1 := Nat.mul_le_mul_right (2 ^ (k1 - cc).toNat) hm1
    have e1 : c * 2 ^ (-k1).toNat * 2 ^ (k1 - cc).toNat = c * 2 ^ (-cc).toNat := by
      rw [mul_assoc, ← pow_add]
      congr 2
      omega
    rw [e1] at h1
    exact h1
  have hsgn : F32.signed s1 (m1 * 2 ^ (k1 - cc).toNat) = ((m1 * 2 ^ (k1 - cc).toNat : Nat) : Int) := by
    rcases hs1 with h | h
    · subst h
      rfl
    · subst h
      cases s1 <;> simp [F32.signed]
  simp only [F32.add, ← hcc, hsgn]
  simp only [F32.signed, Bool.false_eq_true, if_false, Bool.false_and]
  generalize mp * 2 ^ (kp - cc).toNat = A at hA
  generalize m1 * 2 ^ (k1 - cc).toNat = B at hB
  have hz : ((A : Int) + (B : Int)) = ((A + B : Nat) : Int) := by push_cast; rfl
  rw [hz]
  by_cases h0 : A + B = 0
  · rw [if_pos (by exact_mod_cast h0)]
    refine ⟨0, 0, rfl, le_refl _, ?_, Nat.zero_le _⟩
    have hA0 : p * 2 ^ (-cc).toNat = 0 := by omega
    rcases Nat.mul_eq_zero.mp hA0 with h | h
    · subst h
      simp
    · exact absurd h (by positivity)
  · rw [if_neg (by exact_mod_cast h0)]
    have hd : decide (((A + B : Nat) : Int) < 0) = false := by
      rw [decide_eq_false_iff_not]
      omega
    rw [hd, Int.natAbs_ofNat]
    have hc0 : cc.toNat = 0 := by omega
    refine roundNE_between false (A + B) cc p (p + c) h0 hpc ?_ ?_
    · rw [hc0, pow_zero, mul_one]
      omega
    · rw [hc0, pow_zero, mul_one, Nat.add_mul]
      omega


/-- The entry `ledLowEndBoost` writes at an index above 0 is at least the
floor `p <= 1023`, when the curve value `y` lies in `[0, 1]`. -/
theorem lowEndBoost_sample_ge (L : Libm) (y : F32) (h0 : F32.le F32.zero y = true)
    (h1 : F32.le y F32.one = true) (p : Nat) (hp : p ≤ 1023) :
    p ≤ clampPwm (toInt32 (lroundf L (F32.add (F32.ofInt p)
          (F32.mul y (F32.ofInt ((PWM_MAX : Int) - (p : Int))))))) := by
  obtain ⟨sy, my, ey, rfl, hs, hy⟩ := unit_fin y h0 h1
  have hcast : (PWM_MAX : Int) - (p : Int) = ((1023 - p : Nat) : Int) := by
    unfold PWM_MAX
    omega
  rw [hcast]
  obtain ⟨mp, kp, hP, hkp, hmp⟩ := ofInt_exact p (by omega)
  obtain ⟨mc, kc, hC, hkc, hmc⟩ := ofInt_exact (1023 - p) (by omega)
  rw [hP, hC]
  obtain ⟨s1, m1, k1, hprod, hk1, hm1, hs1⟩ :=
    mul_unit_bound sy my ey (1023 - p) mc kc hs hy (by omega) hkc hmc
  rw [hprod]
  obtain ⟨m2, k2, hsum, hk2, hlo, hhi⟩ :=
    add_floor_bound p (1023 - p) mp kp s1 m1 k1 (by omega) hkp hmp hk1 hm1 hs1
  rw [hsum]
  have hpc : p + (1023 - p) = 1023 := by omega
  rw [hpc] at hhi
  obtain ⟨hra0, hra1⟩ := roundAway_between m2 k2 p 1023 hk2 hlo hhi
  rw [toInt32_lroundf_fin L false m2 k2 (by omega) (by omega)]
  have hcl := clampPwm_mid (F32.roundAway false m2 k2) (by omega) (by omega)
  omega

/-- C12: for every `g` and every `pwmMin`, the table of `ledLowEndBoost` has
`out[0] == 0`, `out[255] == 1023`, and every index in `1..255` carries the
floor: `out[i] >= min(pwmMin, 1023)`; this for every C library whose `powf`
maps a base in `[0, 1]` with an exponent `> 0` into `[0, 1]`. -/
theorem lowEndBoost_floor (L : Libm) (hunit : L.powfUnit) (out : Table) (g : F32)
    (pwmMin : Nat) :
    ledLowEndBoost L out g pwmMin 0 = 0
    ∧ ledLowEndBoost L out g pwmMin 255 = 1023
    ∧ ∀ i, 1 ≤ i → i < 256 → min pwmMin 1023 ≤ ledLowEndBoost L out g pwmMin i := by
  refine ⟨(enforce_endpoints_ends _).1, (enforce_endpoints_ends _).2, fun i h1 h2 => ?_⟩
  have hfl : sanitizeFloor pwmMin = min pwmMin 1023 := by
    unfold sanitizeFloor PWM_MAX
    split <;> omega
  rw [ledLowEndBoost_eq_shaping]
  unfold lowEndBoostShaping
  rw [enforce_forLoop_apply _ _ (fun i t => ledLowEndBoost_body L _ _ i t), hfl]
  split
  · omega
  · split
    · omega
    · rw [if_pos ⟨by omega, h2⟩]
      obtain ⟨_, hx0, hx1, _⟩ := xOf_fact i h2
      have hy := hunit (xOf i) (sanitizeGamma (F32.ofRatio 22 10) g) hx0 hx1
        (sanitizeGamma_pos _ g gt_default22)
      exact lowEndBoost_sample_ge L _ hy.1 hy.2 (min pwmMin 1023) (by omega)

/-- Witness of C12 at `pwmMin = 500` and index 1, for the stand-in library. -/
theorem lowEndBoost_floor_witness :
    sampleLibm.powfUnit
    ∧ ledLowEndBoost sampleLibm zeroTable (F32.ofRatio 22 10) 500 0 = 0
    ∧ ledLowEndBoost sampleLibm zeroTable (F32.ofRatio 22 10) 500 255 = 1023
    ∧ min 500 1023 ≤ ledLowEndBoost sampleLibm zeroTable (F32.ofRatio 22 10) 500 1 :=
  ⟨sampleLibm_powfUnit,
    (lowEndBoost_floor sampleLibm sampleLibm_powfUnit zeroTable (F32.ofRatio 22 10) 500).1,
    (lowEndBoost_floor sampleLibm sampleLibm_powfUnit zeroTable (F32.ofRatio 22 10) 500).2.1,
    (lowEndBoost_floor sampleLibm sampleLibm_powfUnit zeroTable (F32.ofRatio 22 10) 500).2.2 1
      (by decide) (by decide)⟩

/-! ## The DALI table -/

/-- Entry `i` of the DALI table, for `i` in `1..254`: the clamped and rounded
`powf(1000, (i - 254) / 253)`. -/
theorem daliLog_entry (L : Libm) (out : Table) (i : Nat) (h1 : 1 ≤ i) (h2 : i < 255) :
    daliLog L out i
      = clampPwm (toPwm L (L.powf (F32.ofRatio 1000 1)
          (F32.div (F32.sub (F32.ofInt (i : Int)) (F32.ofRatio 254 1)) (F32.ofRatio 253 1)))) := by
  unfold daliLog
  simp only []
  rw [enforce_forLoop_apply
    (fun i => clampPwm (toPwm L (L.powf (F32.ofRatio 1000 1)
      (F32.div (F32.sub (F32.ofInt (if i > 254 then 254 else (i : Int)))
        (F32.ofRatio 254 1)) (F32.ofRatio 253 1))))) _ (fun _ _ => rfl)]
  rw [if_neg (by omega), if_neg (by omega), if_pos ⟨h1, by omega⟩, if_neg (by omega)]

/-- The DALI table has 1023 at index 254 when the library's `powf` returns 1
for the exponent `+0` (C standard, Annex F): the exponent computed there is
exactly `+0`. -/
theorem daliLog_254 (L : Libm) (out : Table)
    (hz : L.powf (F32.ofRatio 1000 1) F32.zero = F32.one) :
    daliLog L out 254 = 1023 := by
  have he : F32.div (F32.sub (F32.ofInt ((254 : Nat) : Int)) (F32.ofRatio 254 1))
      (F32.ofRatio 253 1) = F32.zero := by decide!
  have hm : F32.mul F32.one (F32.ofInt PWM_MAX) = F32.fin false 16760832 (-14) := by decide!
  have hr : F32.roundAway false 16760832 (-14) = 1023 := by decide!
  rw [daliLog_entry L out 254 (by omega) (by omega), he, hz]
  unfold toPwm
  rw [hm, toInt32_lroundf_fin L false 16760832 (-14) (by rw [hr]; omega) (by rw [hr]; omega), hr]
  decide

end DimCurve
